import Mathlib

/-!
# libRAMSES++ `RAMSES_info.hh`: domain lookup and Hilbert keys

A shallow embedding of `snapshot::locate`, `snapshot::getdomain_bykey`, the
constant `state_diagram` and `hilbert3d`, with the properties proved about them.

Conventions of the embedding:

* a `double` that is only compared is a rational number (`ℚ`); every finite
  `double` is one, and `>=` on finite doubles is `≥` on `ℚ`;
* `long unsigned` is 64 bits wide and `unsigned`/`int` are 32 bits wide; index
  arithmetic is done on `Nat` with an explicit `% 2^64` or `% 2^32`;
* an operation whose behaviour C++ leaves undefined (reading a vector out of
  bounds, converting an out-of-range `double` to `int`, shifting `1` into or past
  the sign bit) yields `none`;
* the `double` sum that accumulates a key in `order[ip]` is the exact sum rounded
  to 53 significant bits, ties to even (`roundDouble`).
-/

namespace RAMSES

/-! ## Domain lookup -/

/-- The part of `class snapshot` the lookup uses: the domain count of the header
and the two per-domain tables of Hilbert keys. -/
structure snapshot where
  ncpu : Nat
  ind_min : List ℚ
  ind_max : List ℚ

/-- The `while( ju-jl > 1 )` loop of `snapshot::locate`; `jl`, `ju` are the two
`long unsigned` brackets. The first argument bounds the number of iterations
(`none` when it is used up, and also when `vx[jm]` is read out of bounds). -/
def locateLoop (x : ℚ) (vx : List ℚ) (ascnd : Bool) : Nat → Nat → Nat → Option Nat
  | 0, _, _ => none
  | fuel + 1, jl, ju =>
    if 1 < (ju + 2 ^ 64 - jl) % 2 ^ 64 then
      let jm := ((ju + jl) % 2 ^ 64) >>> 1
      match vx[jm]? with
      | none => none
      | some v =>
        if decide (x ≥ v) == ascnd then locateLoop x vx ascnd fuel jm ju
        else locateLoop x vx ascnd fuel jl jm
    else some jl

/-- `snapshot::locate`: bisection for `x` in the table `vx`. The result is the
`unsigned` the function returns. The loop gets `vx.length` iterations, which is
never used up when the table has fewer than `2^63` entries (each iteration
shrinks `ju - jl`). -/
def locate (x : ℚ) (vx : List ℚ) : Option Nat := do
  let last ← vx[(vx.length + 2 ^ 64 - 1) % 2 ^ 64]?
  let first ← vx[0]?
  let ascnd := decide (last ≥ first)
  let jl ← locateLoop x vx ascnd vx.length 0 ((vx.length + 2 ^ 64 - 1) % 2 ^ 64)
  pure ((max 0 (min ((vx.length + 2 ^ 64 - 2) % 2 ^ 64) jl)) % 2 ^ 32)

/-- `snapshot::getdomain_bykey`: the 1-based domain id for a key. -/
def getdomain_bykey (s : snapshot) (key : ℚ) : Option Nat := do
  let i ← locate key s.ind_min
  pure ((i + 1) % 2 ^ 32)


/-- The test of the loop body, `x >= vx[j] == ascnd`, at index `j`. -/
def goesUp (x : ℚ) (vx : List ℚ) (ascnd : Bool) (j : Nat) : Bool :=
  decide (x ≥ vx.getD j 0) == ascnd

/-- The direction flag `ascnd` of `locate`: last entry `>=` first entry. -/
def ascending (vx : List ℚ) : Bool :=
  decide (vx.getD (vx.length - 1) 0 ≥ vx.getD 0 0)


/-! ## Hilbert keys -/

/-- The constant `state_diagram[12][2][8]`: for each of the 12 states, the row of
next states and the row of emitted digits, both indexed by the octant code. -/
def state_diagram : List (List (List Nat)) :=
  [ [[ 1, 2, 3, 2, 4, 5, 3, 5], [0, 1, 3, 2, 7, 6, 4, 5]],
    [[ 2, 6, 0, 7, 8, 8, 0, 7], [0, 7, 1, 6, 3, 4, 2, 5]],
    [[ 0, 9,10, 9, 1, 1,11,11], [0, 3, 7, 4, 1, 2, 6, 5]],
    [[ 6, 0, 6,11, 9, 0, 9, 8], [2, 3, 1, 0, 5, 4, 6, 7]],
    [[11,11, 0, 7, 5, 9, 0, 7], [4, 3, 5, 2, 7, 0, 6, 1]],
    [[ 4, 4, 8, 8, 0, 6,10, 6], [6, 5, 1, 2, 7, 4, 0, 3]],
    [[ 5, 7, 5, 3, 1, 1,11,11], [4, 7, 3, 0, 5, 6, 2, 1]],
    [[ 6, 1, 6,10, 9, 4, 9,10], [6, 7, 5, 4, 1, 0, 2, 3]],
    [[10, 3, 1, 1,10, 3, 5, 9], [2, 5, 3, 4, 1, 6, 0, 7]],
    [[ 4, 4, 8, 8, 2, 7, 2, 3], [2, 1, 5, 6, 3, 0, 4, 7]],
    [[ 7, 2,11, 2, 7, 5, 8, 5], [4, 5, 7, 6, 3, 2, 0, 1]],
    [[10, 3, 2, 6,10, 3, 4, 4], [6, 1, 7, 0, 5, 2, 4, 3]] ]

/-- The read `state_diagram[s][k][c]`; `none` outside the bounds of the table. -/
def sdRead (s k c : Nat) : Option Nat := do
  let plane ← state_diagram[s]?
  let row ← plane[k]?
  row[c]?

/-- The macro `btest(var,pos)`, that is `(var) & (1<<(pos))`, on `int` operands;
`none` when `1<<pos` does not fit the 32-bit `int` (`pos >= 31`). -/
def btest (var : Int) (pos : Nat) : Option Int :=
  if pos < 31 then some (Int.land var ((1 <<< pos : Nat) : Int)) else none

/-- The conversion `(int)d` of a `double`: truncation toward zero, defined when
the truncated value fits the 32-bit `int`. -/
def toInt (d : ℚ) : Option Int :=
  let t := Int.tdiv d.num (d.den : Int)
  if -2 ^ 31 ≤ t ∧ t < 2 ^ 31 then some t else none

/-- The call `pow(2.0, e)`: the exact power of two while it is a finite `double`. -/
def pow2 (e : Nat) : Option ℚ :=
  if e < 1024 then some ((2 : ℚ) ^ e) else none

/-- Position of the leading binary digit of `n` (0 for `n < 2`), for `n < 2^fuel`. -/
def ilog2 : Nat → Nat → Nat
  | 0, _ => 0
  | fuel + 1, n => if n < 2 then 0 else ilog2 fuel (n / 2) + 1

/-- The `double` nearest to the natural number `n < 2^1024`: `n` itself when it
has at most 53 significant bits, else rounded to 53 significant bits, ties to the
even significand (IEEE 754 round-to-nearest-even). -/
def roundDouble (n : Nat) : Nat :=
  if n < 2 ^ 53 then n
  else
    let e := ilog2 1024 n - 52
    let q := n / 2 ^ e
    let r := n % 2 ^ e
    if 2 ^ (e - 1) < r ∨ (r = 2 ^ (e - 1) ∧ q % 2 = 1) then (q + 1) * 2 ^ e else q * 2 ^ e

/-- The `double` sum `a + b`, given for the one case `hilbert3d` needs: the exact
sum is a natural number below `2^1023`. The result is that number rounded to a
`double`. -/
def dadd (a b : ℚ) : Option ℚ :=
  let s := a + b
  if s.den = 1 ∧ 0 ≤ s.num ∧ s.num.toNat < 2 ^ 1023 then
    some ((roundDouble s.num.toNat : Nat) : ℚ)
  else none

/-- The assignment `v[i] = a`; `none` when `i` is out of bounds. -/
def store {α : Type} (v : List α) (i : Nat) (a : α) : Option (List α) :=
  if i < v.length then some (v.set i a) else none

/-- An upward counting loop `for (i = start; i < start + count; ++i) body`. -/
def forUp {σ : Type} (body : Nat → σ → Option σ) : Nat → Nat → σ → Option σ
  | _, 0, s => some s
  | i, count + 1, s => (body i s).bind (forUp body (i + 1) count)

/-- A downward counting loop `for (i = count - 1; i >= 0; --i) body`. -/
def forDown {σ : Type} (body : Nat → σ → Option σ) : Nat → σ → Option σ
  | 0, s => some s
  | count + 1, s => (body count s).bind (forDown body count)

/-- The four scratch vectors `hilbert3d` allocates once and reuses for every
point. -/
structure Masks where
  i_bit_mask : List Bool
  x_bit_mask : List Bool
  y_bit_mask : List Bool
  z_bit_mask : List Bool

/-- Body of the first inner loop: bit `i` of each scaled coordinate of point `ip`
goes to the per-axis masks. -/
def extractStep (x y z : List ℚ) (bit_length ip : Nat) (i : Nat) (m : Masks) :
    Option Masks := do
  let lx ← pow2 bit_length
  let xv ← x[ip]?
  let xx ← toInt (xv * lx)
  let tx ← btest xx i
  let xm ← store m.x_bit_mask i (decide (tx ≠ 0))
  let yv ← y[ip]?
  let xx ← toInt (yv * lx)
  let ty ← btest xx i
  let ym ← store m.y_bit_mask i (decide (ty ≠ 0))
  let zv ← z[ip]?
  let xx ← toInt (zv * lx)
  let tz ← btest xx i
  let zm ← store m.z_bit_mask i (decide (tz ≠ 0))
  pure { m with x_bit_mask := xm, y_bit_mask := ym, z_bit_mask := zm }

/-- Body of the second inner loop: the per-axis bits of level `i` are interleaved
into `i_bit_mask[3*i+2]`, `[3*i+1]`, `[3*i+0]`. -/
def interleaveStep (i : Nat) (m : Masks) : Option Masks := do
  let bx ← m.x_bit_mask[i]?
  let im ← store m.i_bit_mask (3 * i + 2) bx
  let b ← m.y_bit_mask[i]?
  let im ← store im (3 * i + 1) b
  let bz ← m.z_bit_mask[i]?
  let im ← store im (3 * i + 0) bz
  pure { m with i_bit_mask := im }

/-- Body of the third inner loop, on the pair of `i_bit_mask` and `cstate`: one
step of the state machine at level `i`. -/
def walkStep (i : Nat) (s : List Bool × Nat) : Option (List Bool × Nat) := do
  let b2 ← s.1[3 * i + 2]?
  let b1 ← s.1[3 * i + 1]?
  let b0 ← s.1[3 * i + 0]?
  let sdigit := b2.toNat * 4 + b1.toNat * 2 + b0.toNat
  let nstate ← sdRead s.2 0 sdigit
  let hdigit ← sdRead s.2 1 sdigit
  let t2 ← btest (hdigit : Int) 2
  let im ← store s.1 (3 * i + 2) (decide (t2 ≠ 0))
  let t1 ← btest (hdigit : Int) 1
  let im ← store im (3 * i + 1) (decide (t1 ≠ 0))
  let t0 ← btest (hdigit : Int) 0
  let im ← store im (3 * i + 0) (decide (t0 ≠ 0))
  pure (im, nstate)

/-- Body of the last inner loop: `order[ip] += (double)b0*pow(2.0,i)`. -/
def sumStep (i_bit_mask : List Bool) (ip : Nat) (i : Nat) (order : List ℚ) :
    Option (List ℚ) := do
  let b0 ← i_bit_mask[i]?
  let p ← pow2 i
  let cur ← order[ip]?
  let next ← dadd cur ((b0.toNat : ℚ) * p)
  store order ip next

/-- Body of the loop over the points: the work of `hilbert3d` for point `ip`, on
the scratch vectors and the output vector. -/
def hilbertPoint (x y z : List ℚ) (bit_length : Nat) (ip : Nat) (s : Masks × List ℚ) :
    Option (Masks × List ℚ) := do
  let m ← forUp (extractStep x y z bit_length ip) 0 bit_length s.1
  let m ← forUp interleaveStep 0 bit_length m
  let w ← forDown walkStep bit_length (m.i_bit_mask, 0)
  let order ← store s.2 ip 0
  let order ← forUp (sumStep w.1 ip) 0 (3 * bit_length) order
  pure ({ m with i_bit_mask := w.1 }, order)

/-- The function `hilbert3d`: the contents of `order` on return. `npoints` is an
`unsigned`. With `bit_length >= 32` and at least one point the first inner loop
reaches `btest(xx,31)` and the result is `none`, so the `unsigned` products
`3*bit_length` and `3*i+2` never wrap where their value is used. -/
def hilbert3d (x y z order : List ℚ) (bit_length : Nat) : Option (List ℚ) :=
  let m : Masks :=
    { i_bit_mask := List.replicate (3 * bit_length) false
      x_bit_mask := List.replicate (1 * bit_length) false
      y_bit_mask := List.replicate (1 * bit_length) false
      z_bit_mask := List.replicate (1 * bit_length) false }
  let npoints := x.length % 2 ^ 32
  (forUp (hilbertPoint x y z bit_length) 0 npoints (m, order)).map Prod.snd

/-- The key `hilbert3d` computes for one point: the entry `order[0]` after the
call on the one-point vectors `x = [xv]`, `y = [yv]`, `z = [zv]`. -/
def hilbertKey (xv yv zv : ℚ) (bit_length : Nat) : Option ℚ :=
  (hilbert3d [xv] [yv] [zv] [0] bit_length).bind (fun order => order[0]?)

/-! ### The steps of `hilbert3d` as functions -/

/-- The truth value `btest(xx,i)` stores in a bit mask. -/
def bitAt (xx : Int) (i : Nat) : Bool :=
  decide (Int.land xx ((1 <<< i : Nat) : Int) ≠ 0)

/-- The octant code `sdigit = b2*4+b1*2+b0` of level `i`, from the x, y and z bit
of that level. -/
def octant (bx bY bz : Nat → Bool) (i : Nat) : Nat :=
  (bx i).toNat * 4 + (bY i).toNat * 2 + (bz i).toNat

/-- The entry `state_diagram[s][0][c]`, the next state. -/
def nextState (s c : Nat) : Nat := (sdRead s 0 c).getD 0

/-- The entry `state_diagram[s][1][c]`, the emitted digit. -/
def hdigitOf (s c : Nat) : Nat := (sdRead s 1 c).getD 0

/-- The integer held by `i_bit_mask[0 .. 3*levels)` after the state machine has
run over the levels `levels-1, ..., 0` from state `s`, for the octant codes `c`. -/
def walkKey (c : Nat → Nat) : Nat → Nat → Nat
  | 0, _ => 0
  | levels + 1, s =>
    hdigitOf s (c levels) * 8 ^ levels + walkKey c levels (nextState s (c levels))

/-- The state `cstate` after the state machine has run over the levels
`levels-1, ..., 0` from state `s`. -/
def walkEnd (c : Nat → Nat) : Nat → Nat → Nat
  | 0, s => s
  | levels + 1, s => walkEnd c levels (nextState s (c levels))

/-- The value of `order[ip]` after the first `n` iterations of the summing loop
over a bit mask holding the binary digits of `K`. -/
def roundedSum (K : Nat) : Nat → Nat
  | 0 => 0
  | n + 1 => roundDouble (roundedSum K n + (K.testBit n).toNat * 2 ^ n)

/-- The key of a point whose scaled coordinates convert to the `int`s `xx`, `yy`,
`zz`. -/
def pointKey (bit_length : Nat) (xx yy zz : Int) : Nat :=
  roundedSum (walkKey (octant (bitAt xx) (bitAt yy) (bitAt zz)) bit_length 0) (3 * bit_length)

/-- The work of `hilbert3d` for one point as a function of the point alone:
`none` where the code leaves defined behaviour. With `bit_length = 0` the
coordinates are never read. -/
def pointResult (bit_length : Nat) (xv yv zv : ℚ) : Option Nat :=
  if bit_length = 0 then some 0
  else do
    let lx ← pow2 bit_length
    let xx ← toInt (xv * lx)
    let yy ← toInt (yv * lx)
    let zz ← toInt (zv * lx)
    if bit_length ≤ 31 then some (pointKey bit_length xx yy zz) else none

/-! ### The reference of the specification -/

/-- Bit `i` of the discretised coordinate `X`. -/
def refBit (X i : Nat) : Nat := X / 2 ^ i % 2

/-- The octant code `c_i = 4*bit_i(X) + 2*bit_i(Y) + bit_i(Z)`. -/
def refCode (X Y Z i : Nat) : Nat := 4 * refBit X i + 2 * refBit Y i + refBit Z i

/-- The state `s_i` of the reference, counted by the number `t` of levels
already consumed: `refState b X Y Z t` is `s_(b-1-t)`, with `s_(b-1) = 0` and
`s_(i-1) = state_diagram[s_i][0][c_i]`. -/
def refState (b X Y Z : Nat) : Nat → Nat
  | 0 => 0
  | t + 1 => (sdRead (refState b X Y Z t) 0 (refCode X Y Z (b - 1 - t))).getD 0

/-- The digit `d_i = state_diagram[s_i][1][c_i]` of the reference. -/
def refDigit (b X Y Z i : Nat) : Nat :=
  (sdRead (refState b X Y Z (b - 1 - i)) 1 (refCode X Y Z i)).getD 0

/-- The reference key: the sum over `i = 0..b-1` of `d_i * 8^i`. -/
def refKey (b X Y Z : Nat) : Nat :=
  ((List.range b).map (fun i => refDigit b X Y Z i * 8 ^ i)).sum

/-- The sizes `hilbert3d` gives its scratch vectors. -/
def MasksOk (bit_length : Nat) (m : Masks) : Prop :=
  m.i_bit_mask.length = 3 * bit_length ∧ m.x_bit_mask.length = bit_length ∧
  m.y_bit_mask.length = bit_length ∧ m.z_bit_mask.length = bit_length

/-- The coordinate `x` discretises to the integer `X` of the grid of `b` bits per
axis: `X = floor(x * 2^b)` and `0 <= X < 2^b`. -/
def Discretises (b : Nat) (x : ℚ) (X : Nat) : Prop :=
  ⌊x * 2 ^ b⌋ = (X : ℤ) ∧ X < 2 ^ b

/-- Chebyshev distance of two grid cells. -/
def chebyshev (p q : Nat × Nat × Nat) : Nat :=
  max (max (p.1 - q.1) (q.1 - p.1))
    (max (max (p.2.1 - q.2.1) (q.2.1 - p.2.1)) (max (p.2.2 - q.2.2) (q.2.2 - p.2.2)))

/-! ### An inverse of the state machine, used to list the cells along the curve -/

/-- The octant code for which state `s` emits the digit `d`. -/
def octantOf (s d : Nat) : Nat :=
  ((List.range 8).find? (fun c => hdigitOf s c == d)).getD 0

/-- The cell whose octant codes make the state machine, started in state `s`
with `levels` levels, produce the digits of `k`. -/
def cellAt : Nat → Nat → Nat → Nat × Nat × Nat
  | 0, _, _ => (0, 0, 0)
  | levels + 1, s, k =>
    let c := octantOf s (k / 8 ^ levels % 8)
    let rest := cellAt levels (nextState s c) k
    (rest.1 + c / 4 % 2 * 2 ^ levels, rest.2.1 + c / 2 % 2 * 2 ^ levels,
      rest.2.2 + c % 2 * 2 ^ levels)

/-! ## Reading the info file -/

/-- How a call that may throw ends: normally, with the `runtime_error` that
`parse_file` throws for a corrupt file (in iteration `i` of its loop), with the
failure the stream throws when `getline` finds no further line, or outside
defined behaviour (a read of `split_buf` out of bounds). -/
inductive Outcome (α : Type) where
  | ok : α → Outcome α
  | corrupt : Nat → Outcome α
  | ioFailure : Outcome α
  | undefined : Outcome α

/-- Sequencing of two steps: the second runs on the value of the first when the
first ends normally. -/
def Outcome.bind {α β : Type} (o : Outcome α) (f : α → Outcome β) : Outcome β :=
  match o with
  | .ok a => f a
  | .corrupt i => .corrupt i
  | .ioFailure => .ioFailure
  | .undefined => .undefined

/-- White space as `operator>>` skips it (the "C" locale): space, tab, line
feed, vertical tab, form feed, carriage return. -/
def isSpace (c : Char) : Bool :=
  c.toNat = 32 || c.toNat = 9 || c.toNat = 10 || c.toNat = 11 || c.toNat = 12 ||
    c.toNat = 13

/-- The words that `while( ss >> buf )` extracts from the rest of a string; `cur`
is the word being read. -/
def words : List Char → List Char → List (List Char)
  | [], cur => if cur.isEmpty then [] else [cur]
  | c :: cs, cur =>
    if isSpace c then (if cur.isEmpty then words cs [] else cur :: words cs [])
    else words cs (cur ++ [c])

/-- `snapshot::tokenize`: the words of `str` are appended to `tokens`. -/
def tokenize (str : List Char) (tokens : List (List Char)) : List (List Char) :=
  tokens ++ words str []

/-- `std::getline( m_ifs, buf )` on a stream that throws on failure. The stream
is the list of the lines not yet read, each one terminated in the file. -/
def getline (ifs : List (List Char)) : Outcome (List Char × List (List Char)) :=
  match ifs with
  | [] => .ioFailure
  | buf :: rest => .ok (buf, rest)

/-- `snapshot::read_line_rhs`: the right-most word of the next line, before its
conversion, and the stream after the line. For a line without a word the index
`split_buf.size()-1` is out of bounds. -/
def read_line_rhs (ifs : List (List Char)) : Outcome (List Char × List (List Char)) :=
  (getline ifs).bind fun r =>
    match (tokenize r.1 [])[(tokenize r.1 []).length - 1]? with
    | some rhs => .ok (rhs, r.2)
    | none => .undefined

/-- `snapshot::skip_line`. -/
def skip_line (ifs : List (List Char)) : Outcome (List (List Char)) :=
  (getline ifs).bind fun r => .ok r.2

/-- The first part of `snapshot::parse_file`, up to the loop: the header lines.
The result is `m_header.ncpu` and the stream after the header. `toU` is the
conversion `convert` does for an `unsigned`; the other header fields are read and
converted just the same and are not kept here. -/
def parse_header (toU : List Char → Nat) (ifs : List (List Char)) :
    Outcome (Nat × List (List Char)) :=
  (read_line_rhs ifs).bind fun ncpu =>
  (read_line_rhs ncpu.2).bind fun ndim =>
  (read_line_rhs ndim.2).bind fun levelmin =>
  (read_line_rhs levelmin.2).bind fun levelmax =>
  (read_line_rhs levelmax.2).bind fun ngridmax =>
  (read_line_rhs ngridmax.2).bind fun nstep_coarse =>
  (skip_line nstep_coarse.2).bind fun s1 =>
  (read_line_rhs s1).bind fun boxlen =>
  (read_line_rhs boxlen.2).bind fun time =>
  (read_line_rhs time.2).bind fun aexp =>
  (read_line_rhs aexp.2).bind fun H0 =>
  (read_line_rhs H0.2).bind fun omega_m =>
  (read_line_rhs omega_m.2).bind fun omega_l =>
  (read_line_rhs omega_l.2).bind fun omega_k =>
  (read_line_rhs omega_k.2).bind fun omega_b =>
  (read_line_rhs omega_b.2).bind fun unit_l =>
  (read_line_rhs unit_l.2).bind fun unit_d =>
  (read_line_rhs unit_d.2).bind fun unit_t =>
  (skip_line unit_t.2).bind fun s2 =>
  (skip_line s2).bind fun s3 =>
  (skip_line s3).bind fun s4 =>
  .ok (toU ncpu.1 % 2 ^ 32, s4)

/-- The loop of `snapshot::parse_file` over the domain lines: `count` iterations
are left, `i` is the loop variable. `toU` and `toD` are the conversions `convert`
does for an `unsigned` and for a `double`. -/
def parse_domains (toU : List Char → Nat) (toD : List Char → ℚ) :
    Nat → Nat → List (List Char) → snapshot → Outcome snapshot
  | 0, _, _, s => .ok s
  | count + 1, i, ifs, s =>
    (getline ifs).bind fun r =>
      match (tokenize r.1 [])[0]? with
      | none => .undefined
      | some t0 =>
        if toU t0 % 2 ^ 32 ≠ (i + 1) % 2 ^ 32 then .corrupt i
        else
          match (tokenize r.1 [])[1]?, (tokenize r.1 [])[2]? with
          | some t1, some t2 =>
            parse_domains toU toD count (i + 1) r.2
              { s with ind_min := s.ind_min ++ [toD t1], ind_max := s.ind_max ++ [toD t2] }
          | _, _ => .undefined

/-- `snapshot::parse_file` on the object `s`. -/
def parse_file (toU : List Char → Nat) (toD : List Char → ℚ) (ifs : List (List Char))
    (s : snapshot) : Outcome snapshot :=
  (parse_header toU ifs).bind fun h =>
    parse_domains toU toD h.1 0 h.2 { s with ncpu := h.1 }

/-- The domain id on a line: its first word, converted to `unsigned`. -/
def domainId (toU : List Char → Nat) (line : List Char) : Nat :=
  toU ((tokenize line []).getD 0 []) % 2 ^ 32

/-- A conversion of a word of decimal digits to a number, for examples. -/
def decimal (w : List Char) : Nat :=
  w.foldl (fun n c => 10 * n + (c.toNat - 48)) 0

/-- An info file with two domains, for examples. -/
def sampleInfo : List (List Char) :=
  [ "ncpu        =          2".toList, "ndim        =          3".toList,
    "levelmin    =          7".toList, "levelmax    =         10".toList,
    "ngridmax    =     800000".toList, "nstep_coarse=         12".toList,
    "".toList,
    "boxlen      =  1".toList, "time        =  2".toList, "aexp        =  3".toList,
    "H0          =  4".toList, "omega_m     =  5".toList, "omega_l     =  6".toList,
    "omega_k     =  7".toList, "omega_b     =  8".toList, "unit_l      =  9".toList,
    "unit_d      =  1".toList, "unit_t      =  2".toList,
    "".toList, "ordering type=hilbert".toList, "   DOMAIN   ind_min   ind_max".toList,
    "       1   0   10".toList, "       2   10   64".toList ]
/-! ## Lemmas on the bisection -/

theorem locateLoop_bracket (x : ℚ) (vx : List ℚ) (ascnd : Bool) :
    ∀ fuel jl ju : Nat, jl < ju → ju < vx.length → vx.length < 2 ^ 63 → ju - jl ≤ fuel →
      ∃ r, locateLoop x vx ascnd fuel jl ju = some r ∧ jl ≤ r ∧ r < ju ∧
        (r = jl ∨ goesUp x vx ascnd r = true) ∧
        (r + 1 = ju ∨ goesUp x vx ascnd (r + 1) = false) := by
  intro fuel
  induction fuel with
  | zero => intro jl ju h1 _ _ h4; omega
  | succ fuel ih =>
    intro jl ju h1 h2 h3 h4
    have hw : (ju + 2 ^ 64 - jl) % 2 ^ 64 = ju - jl := by omega
    have hs : ((ju + jl) % 2 ^ 64) >>> 1 = (ju + jl) / 2 := by
      rw [Nat.shiftRight_eq_div_pow, Nat.mod_eq_of_lt (by omega)]
    unfold locateLoop
    rw [hw]
    by_cases hgt : 1 < ju - jl
    · rw [if_pos hgt]
      simp only [hs]
      have hm1 : jl < (ju + jl) / 2 := by omega
      have hm2 : (ju + jl) / 2 < ju := by omega
      have hget : vx[(ju + jl) / 2]? = some (vx.getD ((ju + jl) / 2) 0) := by
        rw [List.getD_eq_getElem?_getD, List.getElem?_eq_getElem (by omega)]; rfl
      rw [hget]
      simp only []
      by_cases hc : (decide (x ≥ vx.getD ((ju + jl) / 2) 0) == ascnd) = true
      · rw [if_pos hc]
        obtain ⟨r, hr, h5, h6, h7, h8⟩ := ih ((ju + jl) / 2) ju hm2 h2 h3 (by omega)
        refine ⟨r, hr, by omega, h6, ?_, h8⟩
        rcases h7 with h7 | h7
        · right; rw [h7]; exact hc
        · right; exact h7
      · rw [if_neg hc]
        obtain ⟨r, hr, h5, h6, h7, h8⟩ := ih jl ((ju + jl) / 2) hm1 (by omega) h3 (by omega)
        refine ⟨r, hr, h5, by omega, h7, ?_⟩
        rcases h8 with h8 | h8
        · right; rw [h8]; simpa [goesUp] using hc
        · right; exact h8
    · rw [if_neg hgt]
      exact ⟨jl, rfl, le_refl _, h1, Or.inl rfl, Or.inl (by omega)⟩

theorem locate_bracket (x : ℚ) (vx : List ℚ) (hn : 2 ≤ vx.length) (hlen : vx.length ≤ 2 ^ 32 + 1) :
    ∃ r, locate x vx = some r ∧ r + 2 ≤ vx.length ∧
      (r = 0 ∨ goesUp x vx (ascending vx) r = true) ∧
      (r + 2 = vx.length ∨ goesUp x vx (ascending vx) (r + 1) = false) := by
  have h1 : (vx.length + 2 ^ 64 - 1) % 2 ^ 64 = vx.length - 1 := by omega
  have h2 : (vx.length + 2 ^ 64 - 2) % 2 ^ 64 = vx.length - 2 := by omega
  have hlast : vx[vx.length - 1]? = some (vx.getD (vx.length - 1) 0) := by
    rw [List.getD_eq_getElem?_getD, List.getElem?_eq_getElem (by omega)]; rfl
  have hfirst : vx[0]? = some (vx.getD 0 0) := by
    rw [List.getD_eq_getElem?_getD, List.getElem?_eq_getElem (by omega)]; rfl
  obtain ⟨r, hr, _, h4, h5, h6⟩ := locateLoop_bracket x vx (ascending vx) vx.length 0
    (vx.length - 1) (by omega) (by omega) (by omega) (by omega)
  refine ⟨r, ?_, by omega, h5, ?_⟩
  · unfold locate
    rw [h1, h2, hlast, hfirst]
    simp only [Option.bind_eq_bind, Option.some_bind, Option.pure_def]
    unfold ascending at hr
    rw [hr]
    simp only [Option.some_bind]
    refine congrArg some ?_
    have hmin : min (vx.length - 2) r = r := Nat.min_eq_right (by omega)
    have hmax : max 0 r = r := Nat.zero_max r
    rw [hmin, hmax]
    exact Nat.mod_eq_of_lt (by omega)
  · rcases h6 with h6 | h6
    · left; omega
    · right; exact h6

theorem getD_eq_getElem_of_lt (vx : List ℚ) (i : Nat) (h : i < vx.length) :
    vx.getD i 0 = vx[i] := by
  rw [List.getD_eq_getElem?_getD, List.getElem?_eq_getElem h]; rfl

theorem sorted_getD_le (vx : List ℚ) (hs : List.Sorted (· ≤ ·) vx) (i j : Nat) (hij : i ≤ j)
    (hj : j < vx.length) : vx.getD i 0 ≤ vx.getD j 0 := by
  rw [getD_eq_getElem_of_lt vx i (by omega), getD_eq_getElem_of_lt vx j hj]
  rcases Nat.eq_or_lt_of_le hij with h | h
  · subst h; exact le_refl _
  · exact (List.pairwise_iff_getElem.mp hs) i j (by omega) hj h

/-! ## Theorems on the domain lookup -/

/-- C2: for every ascending (sorted) boundary table `vx` of length `n >= 2` (short
enough for the `unsigned` result) and every key with `vx[0] <= key < vx[n-1]`,
`locate` returns an index `i` in `[0, n-2]` with `vx[i] <= key < vx[i+1]`, and `i`
is the only index with that property (for every sorted table, so in particular
for a strictly ascending one). On `[0, 10, 25, 40]`: `locate(5) = 0`,
`locate(10) = 1`, `locate(24) = 1`, `locate(39.9) = 2`. -/
theorem locate_ascending_bracket (key : ℚ) (vx : List ℚ) (hn : 2 ≤ vx.length)
    (hlen : vx.length ≤ 2 ^ 32 + 1) (hsorted : List.Sorted (· ≤ ·) vx)
    (hlo : vx.getD 0 0 ≤ key) (hhi : key < vx.getD (vx.length - 1) 0) :
    (∃ i, locate key vx = some i ∧ i + 2 ≤ vx.length ∧
      vx.getD i 0 ≤ key ∧ key < vx.getD (i + 1) 0 ∧
      ∀ j, j + 2 ≤ vx.length → vx.getD j 0 ≤ key → key < vx.getD (j + 1) 0 → j = i) ∧
    locate 5 [0, 10, 25, 40] = some 0 ∧ locate 10 [0, 10, 25, 40] = some 1 ∧
    locate 24 [0, 10, 25, 40] = some 1 ∧ locate (399 / 10) [0, 10, 25, 40] = some 2 := by
  refine ⟨?_, by decide, by decide, by decide, by simp [locate, locateLoop]; norm_num⟩
  obtain ⟨r, hr, h1, h2, h3⟩ := locate_bracket key vx hn hlen
  have hasc : ascending vx = true := by
    unfold ascending
    exact decide_eq_true (le_trans hlo (le_of_lt hhi))
  have hr1 : vx.getD r 0 ≤ key := by
    rcases h2 with h2 | h2
    · rw [h2]; exact hlo
    · simpa [goesUp, hasc] using h2
  have hr2 : key < vx.getD (r + 1) 0 := by
    rcases h3 with h3 | h3
    · have : r + 1 = vx.length - 1 := by omega
      rw [this]; exact hhi
    · simpa [goesUp, hasc] using h3
  refine ⟨r, hr, h1, hr1, hr2, ?_⟩
  intro j hj hj1 hj2
  by_contra hne
  rcases Nat.lt_or_gt_of_ne hne with h | h
  · have := sorted_getD_le vx hsorted (j + 1) r (by omega) (by omega)
    exact absurd (lt_of_lt_of_le hj2 this) (not_lt.mpr hr1)
  · have := sorted_getD_le vx hsorted (r + 1) j (by omega) (by omega)
    exact absurd (lt_of_lt_of_le hr2 this) (not_lt.mpr hj1)

theorem locate_ascending_bracket_witness :
    (∃ i, locate 5 [0, 10, 25, 40] = some i ∧ i + 2 ≤ [(0 : ℚ), 10, 25, 40].length ∧
      [(0 : ℚ), 10, 25, 40].getD i 0 ≤ 5 ∧ (5 : ℚ) < [(0 : ℚ), 10, 25, 40].getD (i + 1) 0 ∧
      ∀ j, j + 2 ≤ [(0 : ℚ), 10, 25, 40].length → [(0 : ℚ), 10, 25, 40].getD j 0 ≤ 5 →
        (5 : ℚ) < [(0 : ℚ), 10, 25, 40].getD (j + 1) 0 → j = i) :=
  (locate_ascending_bracket 5 [0, 10, 25, 40] (by decide) (by simp)
    (by norm_num [List.Sorted]) (by norm_num) (by norm_num)).1

/-- C8: for every boundary table `vx` of length `n >= 2` (short enough for the
`unsigned` result) whose last entry is below its first, as in every strictly
descending table, and every key with `vx[n-1] <= key < vx[0]`, `locate` returns
an index `i` in `[0, n-2]` with `vx[i+1] <= key < vx[i]`. On `[40, 25, 10, 0]`:
`locate(5) = 2`. -/
theorem locate_descending_bracket (key : ℚ) (vx : List ℚ) (hn : 2 ≤ vx.length)
    (hlen : vx.length ≤ 2 ^ 32 + 1)
    (hlo : vx.getD (vx.length - 1) 0 ≤ key) (hhi : key < vx.getD 0 0) :
    (∃ i, locate key vx = some i ∧ i + 2 ≤ vx.length ∧
      vx.getD (i + 1) 0 ≤ key ∧ key < vx.getD i 0) ∧
    locate 5 [40, 25, 10, 0] = some 2 := by
  refine ⟨?_, by decide⟩
  obtain ⟨r, hr, h1, h2, h3⟩ := locate_bracket key vx hn hlen
  have hasc : ascending vx = false := by
    unfold ascending
    exact decide_eq_false (not_le.mpr (lt_of_le_of_lt hlo hhi))
  refine ⟨r, hr, h1, ?_, ?_⟩
  · rcases h3 with h3 | h3
    · have : r + 1 = vx.length - 1 := by omega
      rw [this]; exact hlo
    · simpa [goesUp, hasc] using h3
  · rcases h2 with h2 | h2
    · rw [h2]; exact hhi
    · simpa [goesUp, hasc] using h2

theorem locate_descending_bracket_witness :
    ∃ i, locate 5 [40, 25, 10, 0] = some i ∧ i + 2 ≤ [(40 : ℚ), 25, 10, 0].length ∧
      [(40 : ℚ), 25, 10, 0].getD (i + 1) 0 ≤ 5 ∧ (5 : ℚ) < [(40 : ℚ), 25, 10, 0].getD i 0 :=
  (locate_descending_bracket 5 [40, 25, 10, 0] (by decide) (by simp)
    (by norm_num) (by norm_num)).1

/-- C1 (evaluation at the failing input): with three domains owning `[0, 10)`,
`[10, 25)` and `[25, 40)`, the key `30` lies in the interval of domain 3, and
`getdomain_bykey` returns 2. -/
theorem getdomain_bykey_last_interval :
    List.Sorted (· < ·) [(0 : ℚ), 10, 25] ∧
    ([(10 : ℚ), 25, 40].getD 0 0 = [(0 : ℚ), 10, 25].getD 1 0 ∧
      [(10 : ℚ), 25, 40].getD 1 0 = [(0 : ℚ), 10, 25].getD 2 0) ∧
    ([(0 : ℚ), 10, 25].getD 0 0 ≤ 30 ∧ (30 : ℚ) < [(10 : ℚ), 25, 40].getD 2 0) ∧
    ([(0 : ℚ), 10, 25].getD 2 0 ≤ 30 ∧ (30 : ℚ) < [(10 : ℚ), 25, 40].getD 2 0) ∧
    getdomain_bykey ⟨3, [0, 10, 25], [10, 25, 40]⟩ 30 = some 2 := by
  refine ⟨by norm_num [List.Sorted], ⟨by simp, by simp⟩, ⟨by norm_num, by norm_num⟩,
    ⟨by norm_num, by norm_num⟩, by decide⟩

/-- C7 (evaluation at the failing input): with two domains and
`ind_min = [0, 10]`, the key `ind_min[2] = 10` is resolved by `getdomain_bykey`
to domain 1 and not to domain 2. -/
theorem getdomain_bykey_last_ind_min :
    List.Sorted (· < ·) [(0 : ℚ), 10] ∧
    getdomain_bykey ⟨2, [0, 10], [10, 40]⟩ ([(0 : ℚ), 10].getD 1 0) = some 1 := by
  refine ⟨by norm_num [List.Sorted], by decide⟩

theorem getdomain_bykey_le_pred (s : snapshot) (key : ℚ) (hn : 2 ≤ s.ind_min.length)
    (hlen : s.ind_min.length ≤ 2 ^ 32) :
    ∃ d, getdomain_bykey s key = some d ∧ 1 ≤ d ∧ d + 1 ≤ s.ind_min.length := by
  obtain ⟨r, hr, h1, _, _⟩ := locate_bracket key s.ind_min hn (by omega)
  refine ⟨r + 1, ?_, by omega, by omega⟩
  unfold getdomain_bykey
  rw [hr]
  simp only [Option.bind_eq_bind, Option.some_bind, Option.pure_def]
  refine congrArg some ?_
  show (r + 1) % 2 ^ 32 = r + 1
  exact Nat.mod_eq_of_lt (by omega)

/-! ## Lemmas on the loops and the basic operations -/

theorem forUp_inv {σ : Type} (body : Nat → σ → Option σ) (P : Nat → σ → Prop) :
    ∀ (count i : Nat) (s : σ), P i s →
      (∀ j t, i ≤ j → j < i + count → P j t → ∃ t', body j t = some t' ∧ P (j + 1) t') →
      ∃ s', forUp body i count s = some s' ∧ P (i + count) s' := by
  intro count
  induction count with
  | zero => intro i s h _; exact ⟨s, rfl, h⟩
  | succ count ih =>
    intro i s h hstep
    obtain ⟨t, ht, hP⟩ := hstep i s (le_refl _) (by omega) h
    obtain ⟨s', hs', hP'⟩ := ih (i + 1) t hP
      (fun j u h1 h2 h3 => hstep j u (by omega) (by omega) h3)
    refine ⟨s', ?_, ?_⟩
    · show (body i s).bind (forUp body (i + 1) count) = some s'
      rw [ht]; exact hs'
    · have : i + (count + 1) = i + 1 + count := by omega
      rw [this]; exact hP'

theorem forUp_none {σ : Type} (body : Nat → σ → Option σ) (j : Nat)
    (hj : ∀ t, body j t = none) :
    ∀ (count i : Nat) (s : σ), i ≤ j → j < i + count → forUp body i count s = none := by
  intro count
  induction count with
  | zero => intro i s h1 h2; omega
  | succ count ih =>
    intro i s h1 h2
    show (body i s).bind (forUp body (i + 1) count) = none
    rcases Nat.eq_or_lt_of_le h1 with h | h
    · rw [h, hj]; rfl
    · cases hb : body i s with
      | none => rfl
      | some t => exact ih (i + 1) t h (by omega)

theorem store_eq {α : Type} (v : List α) (i : Nat) (a : α) (h : i < v.length) :
    store v i a = some (v.set i a) := by
  unfold store; rw [if_pos h]

theorem get_set_self {α : Type} (v : List α) (i : Nat) (a : α) (h : i < v.length) :
    (v.set i a)[i]? = some a := by
  rw [List.getElem?_set, if_pos rfl, if_pos h]

theorem get_set_other {α : Type} (v : List α) (i j : Nat) (a : α) (h : i ≠ j) :
    (v.set i a)[j]? = v[j]? := by
  rw [List.getElem?_set, if_neg h]

theorem sdRead_next : ∀ s, s < 12 → ∀ c, c < 8 →
    sdRead s 0 c = some (nextState s c) ∧ nextState s c < 12 := by
  decide

theorem sdRead_digit : ∀ s, s < 12 → ∀ c, c < 8 →
    sdRead s 1 c = some (hdigitOf s c) ∧ hdigitOf s c < 8 := by
  decide

theorem hdigitOf_injective : ∀ s, s < 12 → ∀ c, c < 8 → ∀ c', c' < 8 →
    hdigitOf s c = hdigitOf s c' → c = c' := by
  decide

theorem btest_eq (v : Int) (i : Nat) (h : i < 31) :
    btest v i = some (Int.land v ((1 <<< i : Nat) : Int)) := by
  unfold btest; rw [if_pos h]

theorem btest_none (v : Int) (i : Nat) (h : 31 ≤ i) : btest v i = none := by
  unfold btest; rw [if_neg (by omega)]

theorem bitAt_natCast (X i : Nat) : bitAt (X : Int) i = X.testBit i := by
  unfold bitAt
  have h : Int.land (X : Int) ((1 <<< i : Nat) : Int) = ((X &&& 2 ^ i : Nat) : Int) := by
    rw [Nat.one_shiftLeft]; rfl
  rw [h, Nat.and_two_pow]
  cases X.testBit i with
  | false => simp
  | true => simp

/-! ## The four inner loops -/

theorem extractStep_eq (x y z : List ℚ) (b ip : Nat) (xv yv zv : ℚ) (xx yy zz : Int)
    (hb : b ≤ 31) (hx : x[ip]? = some xv) (hy : y[ip]? = some yv) (hz : z[ip]? = some zv)
    (hxx : toInt (xv * 2 ^ b) = some xx) (hyy : toInt (yv * 2 ^ b) = some yy)
    (hzz : toInt (zv * 2 ^ b) = some zz) (j : Nat) (hj : j < b) (t : Masks)
    (ht : MasksOk b t) :
    extractStep x y z b ip j t = some
      { t with x_bit_mask := t.x_bit_mask.set j (bitAt xx j)
               y_bit_mask := t.y_bit_mask.set j (bitAt yy j)
               z_bit_mask := t.z_bit_mask.set j (bitAt zz j) } := by
  obtain ⟨_, h2, h3, h4⟩ := ht
  have hp : pow2 b = some ((2 : ℚ) ^ b) := by unfold pow2; rw [if_pos (by omega)]
  unfold extractStep
  rw [hp, hx, hy, hz]
  simp only [Option.bind_eq_bind, Option.some_bind, Option.pure_def, hxx, hyy, hzz,
    btest_eq _ j (by omega), store_eq _ j _ (by omega : j < t.x_bit_mask.length),
    store_eq _ j _ (by omega : j < t.y_bit_mask.length),
    store_eq _ j _ (by omega : j < t.z_bit_mask.length)]
  rfl

theorem extract_spec (x y z : List ℚ) (b ip : Nat) (xv yv zv : ℚ) (xx yy zz : Int)
    (hb : b ≤ 31) (hx : x[ip]? = some xv) (hy : y[ip]? = some yv) (hz : z[ip]? = some zv)
    (hxx : toInt (xv * 2 ^ b) = some xx) (hyy : toInt (yv * 2 ^ b) = some yy)
    (hzz : toInt (zv * 2 ^ b) = some zz) (m : Masks) (hm : MasksOk b m) :
    ∃ m', forUp (extractStep x y z b ip) 0 b m = some m' ∧ MasksOk b m' ∧
      m'.i_bit_mask = m.i_bit_mask ∧
      ∀ i, i < b → m'.x_bit_mask[i]? = some (bitAt xx i) ∧
        m'.y_bit_mask[i]? = some (bitAt yy i) ∧ m'.z_bit_mask[i]? = some (bitAt zz i) := by
  have key := forUp_inv (extractStep x y z b ip)
    (fun j t => MasksOk b t ∧ t.i_bit_mask = m.i_bit_mask ∧
      ∀ i, i < j → t.x_bit_mask[i]? = some (bitAt xx i) ∧
        t.y_bit_mask[i]? = some (bitAt yy i) ∧ t.z_bit_mask[i]? = some (bitAt zz i))
    b 0 m ⟨hm, rfl, fun i hi => absurd hi (Nat.not_lt_zero i)⟩ ?_
  · obtain ⟨m', h1, h2, h3, h4⟩ := key
    exact ⟨m', h1, h2, h3, fun i hi => h4 i (by omega)⟩
  · intro j t _ hj ⟨ht, hi, hbits⟩
    have hj' : j < b := by omega
    refine ⟨_, extractStep_eq x y z b ip xv yv zv xx yy zz hb hx hy hz hxx hyy hzz j hj' t ht,
      ?_, hi, ?_⟩
    · obtain ⟨h1, h2, h3, h4⟩ := ht
      exact ⟨h1, by simp [h2], by simp [h3], by simp [h4]⟩
    · intro i hi'
      obtain ⟨_, h2, h3, h4⟩ := ht
      rcases Nat.eq_or_lt_of_le (Nat.lt_succ_iff.mp hi') with h | h
      · subst h
        exact ⟨get_set_self _ _ _ (by omega), get_set_self _ _ _ (by omega),
          get_set_self _ _ _ (by omega)⟩
      · obtain ⟨e1, e2, e3⟩ := hbits i h
        have hne : j ≠ i := by omega
        exact ⟨by simp only [get_set_other _ _ _ _ hne]; exact e1,
          by simp only [get_set_other _ _ _ _ hne]; exact e2,
          by simp only [get_set_other _ _ _ _ hne]; exact e3⟩

theorem interleaveStep_eq (b j : Nat) (hj : j < b) (t : Masks) (ht : MasksOk b t)
    (vx vy vz : Bool) (hx : t.x_bit_mask[j]? = some vx) (hy : t.y_bit_mask[j]? = some vy)
    (hz : t.z_bit_mask[j]? = some vz) :
    interleaveStep j t = some
      { t with i_bit_mask :=
          ((t.i_bit_mask.set (3 * j + 2) vx).set (3 * j + 1) vy).set (3 * j + 0) vz } := by
  obtain ⟨h1, _, _, _⟩ := ht
  unfold interleaveStep
  rw [hx, hy, hz]
  simp only [Option.bind_eq_bind, Option.some_bind, Option.pure_def]
  rw [store_eq _ _ _ (by omega)]
  simp only [Option.some_bind]
  rw [store_eq _ _ _ (by rw [List.length_set]; omega)]
  simp only [Option.some_bind]
  rw [store_eq _ _ _ (by rw [List.length_set, List.length_set]; omega)]
  rfl

theorem interleave_spec (b : Nat) (bx bY bz : Nat → Bool) (m : Masks) (hm : MasksOk b m)
    (hbits : ∀ i, i < b → m.x_bit_mask[i]? = some (bx i) ∧
      m.y_bit_mask[i]? = some (bY i) ∧ m.z_bit_mask[i]? = some (bz i)) :
    ∃ m', forUp interleaveStep 0 b m = some m' ∧ MasksOk b m' ∧
      ∀ i, i < b → m'.i_bit_mask[3 * i + 2]? = some (bx i) ∧
        m'.i_bit_mask[3 * i + 1]? = some (bY i) ∧ m'.i_bit_mask[3 * i + 0]? = some (bz i) := by
  have key := forUp_inv interleaveStep
    (fun j t => MasksOk b t ∧ t.x_bit_mask = m.x_bit_mask ∧ t.y_bit_mask = m.y_bit_mask ∧
      t.z_bit_mask = m.z_bit_mask ∧
      ∀ i, i < j → t.i_bit_mask[3 * i + 2]? = some (bx i) ∧
        t.i_bit_mask[3 * i + 1]? = some (bY i) ∧ t.i_bit_mask[3 * i + 0]? = some (bz i))
    b 0 m ⟨hm, rfl, rfl, rfl, fun i hi => absurd hi (Nat.not_lt_zero i)⟩ ?_
  · obtain ⟨m', h1, h2, _, _, _, h4⟩ := key
    exact ⟨m', h1, h2, fun i hi => h4 i (by omega)⟩
  · intro j t _ hj ⟨ht, ex, ey, ez, hdone⟩
    have hj' : j < b := by omega
    obtain ⟨hx, hy, hz⟩ := hbits j hj'
    rw [← ex] at hx; rw [← ey] at hy; rw [← ez] at hz
    refine ⟨_, interleaveStep_eq b j hj' t ht _ _ _ hx hy hz, ?_, ex, ey, ez, ?_⟩
    · obtain ⟨h1, h2, h3, h4⟩ := ht
      exact ⟨by simp [h1], h2, h3, h4⟩
    · intro i hi'
      obtain ⟨h1, _, _, _⟩ := ht
      show (((t.i_bit_mask.set (3 * j + 2) (bx j)).set (3 * j + 1) (bY j)).set (3 * j + 0)
          (bz j))[3 * i + 2]? = some (bx i) ∧
        (((t.i_bit_mask.set (3 * j + 2) (bx j)).set (3 * j + 1) (bY j)).set (3 * j + 0)
          (bz j))[3 * i + 1]? = some (bY i) ∧
        (((t.i_bit_mask.set (3 * j + 2) (bx j)).set (3 * j + 1) (bY j)).set (3 * j + 0)
          (bz j))[3 * i + 0]? = some (bz i)
      rcases Nat.eq_or_lt_of_le (Nat.lt_succ_iff.mp hi') with h | h
      · subst h
        refine ⟨?_, ?_, ?_⟩
        · rw [get_set_other _ _ _ _ (by omega), get_set_other _ _ _ _ (by omega),
            get_set_self _ _ _ (by omega)]
        · rw [get_set_other _ _ _ _ (by omega),
            get_set_self _ _ _ (by rw [List.length_set]; omega)]
        · rw [get_set_self _ _ _ (by rw [List.length_set, List.length_set]; omega)]
      · obtain ⟨e1, e2, e3⟩ := hdone i h
        refine ⟨?_, ?_, ?_⟩
        · rw [get_set_other _ _ _ _ (by omega), get_set_other _ _ _ _ (by omega),
            get_set_other _ _ _ _ (by omega)]; exact e1
        · rw [get_set_other _ _ _ _ (by omega), get_set_other _ _ _ _ (by omega),
            get_set_other _ _ _ _ (by omega)]; exact e2
        · rw [get_set_other _ _ _ _ (by omega), get_set_other _ _ _ _ (by omega),
            get_set_other _ _ _ _ (by omega)]; exact e3

theorem octant_lt (bx bY bz : Nat → Bool) (i : Nat) : octant bx bY bz i < 8 := by
  unfold octant
  cases bx i <;> cases bY i <;> cases bz i <;> decide

theorem walkKey_lt (c : Nat → Nat) (hc : ∀ i, c i < 8) :
    ∀ k s, s < 12 → walkKey c k s < 8 ^ k := by
  intro k
  induction k with
  | zero => intro s _; show 0 < 8 ^ 0; decide
  | succ k ih =>
    intro s hs
    have h1 := (sdRead_digit s hs (c k) (hc k)).2
    have h2 := ih (nextState s (c k)) (sdRead_next s hs (c k) (hc k)).2
    show hdigitOf s (c k) * 8 ^ k + walkKey c k (nextState s (c k)) < 8 ^ (k + 1)
    have h3 : hdigitOf s (c k) * 8 ^ k ≤ 7 * 8 ^ k := Nat.mul_le_mul_right _ (by omega)
    rw [pow_succ]
    omega

theorem walkKey_testBit (c : Nat → Nat) (hc : ∀ i, c i < 8) (k s : Nat) (hs : s < 12)
    (j : Nat) :
    (walkKey c (k + 1) s).testBit j =
      if j < 3 * k then (walkKey c k (nextState s (c k))).testBit j
      else (hdigitOf s (c k)).testBit (j - 3 * k) := by
  have h2 := walkKey_lt c hc k (nextState s (c k)) (sdRead_next s hs (c k) (hc k)).2
  have h8 : (8 : Nat) ^ k = 2 ^ (3 * k) := by rw [pow_mul]; rfl
  rw [h8] at h2
  show (hdigitOf s (c k) * 8 ^ k + walkKey c k (nextState s (c k))).testBit j = _
  rw [h8, Nat.mul_comm, Nat.testBit_mul_pow_two_add _ h2]

theorem walkStep_eq (k : Nat) (im : List Bool) (s : Nat) (hlen : 3 * k + 3 ≤ im.length)
    (hs : s < 12) (v2 v1 v0 : Bool) (h2 : im[3 * k + 2]? = some v2)
    (h1 : im[3 * k + 1]? = some v1) (h0 : im[3 * k + 0]? = some v0) :
    walkStep k (im, s) = some
      (((im.set (3 * k + 2) ((hdigitOf s (v2.toNat * 4 + v1.toNat * 2 + v0.toNat)).testBit 2)).set
          (3 * k + 1) ((hdigitOf s (v2.toNat * 4 + v1.toNat * 2 + v0.toNat)).testBit 1)).set
          (3 * k + 0) ((hdigitOf s (v2.toNat * 4 + v1.toNat * 2 + v0.toNat)).testBit 0),
        nextState s (v2.toNat * 4 + v1.toNat * 2 + v0.toNat)) := by
  have hc : v2.toNat * 4 + v1.toNat * 2 + v0.toNat < 8 := by
    cases v2 <;> cases v1 <;> cases v0 <;> decide
  have hn := (sdRead_next s hs _ hc).1
  have hd := (sdRead_digit s hs _ hc).1
  unfold walkStep
  simp only [Option.bind_eq_bind, Option.some_bind, Option.pure_def, h2, h1, h0, hn, hd,
    btest_eq _ 2 (by decide), btest_eq _ 1 (by decide), btest_eq _ 0 (by decide)]
  rw [store_eq _ _ _ (by omega)]
  simp only [Option.some_bind]
  rw [store_eq _ _ _ (by rw [List.length_set]; omega)]
  simp only [Option.some_bind]
  rw [store_eq _ _ _ (by rw [List.length_set, List.length_set]; omega)]
  simp only [← bitAt_natCast]
  rfl

theorem walk_spec (bx bY bz : Nat → Bool) :
    ∀ (k : Nat) (im : List Bool) (s : Nat), 3 * k ≤ im.length → s < 12 →
      (∀ i, i < k → im[3 * i + 2]? = some (bx i) ∧ im[3 * i + 1]? = some (bY i) ∧
        im[3 * i + 0]? = some (bz i)) →
      ∃ im', forDown walkStep k (im, s) = some (im', walkEnd (octant bx bY bz) k s) ∧
        im'.length = im.length ∧ (∀ j, 3 * k ≤ j → im'[j]? = im[j]?) ∧
        ∀ j, j < 3 * k → im'[j]? = some ((walkKey (octant bx bY bz) k s).testBit j) := by
  intro k
  induction k with
  | zero =>
    intro im s _ _ _
    exact ⟨im, rfl, rfl, fun _ _ => rfl, fun j hj => absurd hj (Nat.not_lt_zero j)⟩
  | succ k ih =>
    intro im s hlen hs hbits
    obtain ⟨e2, e1, e0⟩ := hbits k (Nat.lt_succ_self k)
    have hstep := walkStep_eq k im s (by omega) hs _ _ _ e2 e1 e0
    have hc := octant_lt bx bY bz
    have hn := (sdRead_next s hs _ (hc k)).2
    have hd := (sdRead_digit s hs _ (hc k)).2
    obtain ⟨im', hrun, hl, hhigh, hlow⟩ := ih
      (((im.set (3 * k + 2) ((hdigitOf s (octant bx bY bz k)).testBit 2)).set
        (3 * k + 1) ((hdigitOf s (octant bx bY bz k)).testBit 1)).set
        (3 * k + 0) ((hdigitOf s (octant bx bY bz k)).testBit 0))
      (nextState s (octant bx bY bz k))
      (by rw [List.length_set, List.length_set, List.length_set]; omega) hn
      (fun i hi => by
        obtain ⟨f2, f1, f0⟩ := hbits i (by omega)
        refine ⟨?_, ?_, ?_⟩
        · rw [get_set_other _ _ _ _ (by omega), get_set_other _ _ _ _ (by omega),
            get_set_other _ _ _ _ (by omega)]; exact f2
        · rw [get_set_other _ _ _ _ (by omega), get_set_other _ _ _ _ (by omega),
            get_set_other _ _ _ _ (by omega)]; exact f1
        · rw [get_set_other _ _ _ _ (by omega), get_set_other _ _ _ _ (by omega),
            get_set_other _ _ _ _ (by omega)]; exact f0)
    refine ⟨im', ?_, ?_, ?_, ?_⟩
    · show (walkStep k (im, s)).bind (forDown walkStep k) = _
      rw [hstep]; exact hrun
    · rw [hl, List.length_set, List.length_set, List.length_set]
    · intro j hj
      rw [hhigh j (by omega), get_set_other _ _ _ _ (by omega),
        get_set_other _ _ _ _ (by omega), get_set_other _ _ _ _ (by omega)]
    · intro j hj
      rw [walkKey_testBit _ hc k s hs j]
      by_cases hjk : j < 3 * k
      · rw [if_pos hjk]; exact hlow j hjk
      · rw [if_neg hjk, hhigh j (by omega)]
        have hcases : j = 3 * k + 0 ∨ j = 3 * k + 1 ∨ j = 3 * k + 2 := by omega
        rcases hcases with h | h | h
        · subst h
          rw [get_set_self _ _ _ (by rw [List.length_set, List.length_set]; omega)]
          simp
        · subst h
          rw [get_set_other _ _ _ _ (by omega),
            get_set_self _ _ _ (by rw [List.length_set]; omega)]
          simp
        · subst h
          rw [get_set_other _ _ _ _ (by omega), get_set_other _ _ _ _ (by omega),
            get_set_self _ _ _ (by omega)]
          simp

theorem ilog2_pow_le : ∀ (fuel n : Nat), 1 ≤ n → 2 ^ ilog2 fuel n ≤ n := by
  intro fuel
  induction fuel with
  | zero => intro n h; exact h
  | succ fuel ih =>
    intro n h
    unfold ilog2
    by_cases h2 : n < 2
    · rw [if_pos h2]; exact h
    · rw [if_neg h2, pow_succ]
      have := ih (n / 2) (by omega)
      omega

theorem roundDouble_exact (n : Nat) (h : n < 2 ^ 53) : roundDouble n = n := by
  unfold roundDouble; rw [if_pos h]

theorem roundDouble_le (n : Nat) : roundDouble n ≤ 2 * n := by
  unfold roundDouble
  by_cases h : n < 2 ^ 53
  · rw [if_pos h]; omega
  · rw [if_neg h]
    have hn : 1 ≤ n := by
      have : 0 < 2 ^ 53 := by decide
      omega
    have h1 : 2 ^ (ilog2 1024 n - 52) ≤ n :=
      le_trans (Nat.pow_le_pow_right (by decide) (Nat.sub_le _ _)) (ilog2_pow_le 1024 n hn)
    have h2 : n / 2 ^ (ilog2 1024 n - 52) * 2 ^ (ilog2 1024 n - 52) ≤ n := Nat.div_mul_le_self _ _
    simp only []
    split
    · rw [Nat.add_mul, Nat.one_mul]; omega
    · omega

theorem roundedSum_le (K : Nat) : ∀ n, roundedSum K n ≤ n * 2 ^ n := by
  intro n
  induction n with
  | zero => exact le_refl _
  | succ n ih =>
    show roundDouble (roundedSum K n + (K.testBit n).toNat * 2 ^ n) ≤ (n + 1) * 2 ^ (n + 1)
    have h1 := roundDouble_le (roundedSum K n + (K.testBit n).toNat * 2 ^ n)
    have h2 : (K.testBit n).toNat * 2 ^ n ≤ 1 * 2 ^ n :=
      Nat.mul_le_mul_right _ (Bool.toNat_le _)
    have h3 : (n + 1) * 2 ^ (n + 1) = 2 * (n * 2 ^ n + 1 * 2 ^ n) := by ring
    omega

theorem roundedSum_exact (K : Nat) : ∀ n, n ≤ 53 → roundedSum K n = K % 2 ^ n := by
  intro n
  induction n with
  | zero => intro _; show 0 = K % 2 ^ 0; rw [pow_zero, Nat.mod_one]
  | succ n ih =>
    intro hn
    show roundDouble (roundedSum K n + (K.testBit n).toNat * 2 ^ n) = K % 2 ^ (n + 1)
    rw [ih (by omega)]
    have hmod : K % 2 ^ (n + 1) = K % 2 ^ n + (K.testBit n).toNat * 2 ^ n := by
      rw [Nat.mod_pow_succ, Nat.toNat_testBit, Nat.mul_comm]
    rw [← hmod]
    apply roundDouble_exact
    exact lt_of_lt_of_le (Nat.mod_lt _ (by positivity))
      (Nat.pow_le_pow_right (by decide) hn)

theorem dadd_natCast (a t : Nat) (h : a + t < 2 ^ 1023) :
    dadd (a : ℚ) (t : ℚ) = some ((roundDouble (a + t) : Nat) : ℚ) := by
  unfold dadd
  have hs : (a : ℚ) + (t : ℚ) = ((a + t : Nat) : ℚ) := by push_cast; rfl
  simp only [hs, Rat.den_natCast, Rat.num_natCast, Int.toNat_ofNat]
  rw [if_pos ⟨trivial, Int.ofNat_nonneg _, h⟩]

theorem sumStep_eq (im : List Bool) (ip j : Nat) (order : List ℚ) (K S : Nat)
    (hbit : im[j]? = some (K.testBit j)) (hj : j < 1024) (hip : ip < order.length)
    (hcur : order[ip]? = some (S : ℚ)) (hS : S + (K.testBit j).toNat * 2 ^ j < 2 ^ 1023) :
    sumStep im ip j order =
      some (order.set ip ((roundDouble (S + (K.testBit j).toNat * 2 ^ j) : Nat) : ℚ)) := by
  have hp : pow2 j = some ((2 : ℚ) ^ j) := by unfold pow2; rw [if_pos hj]
  have hc : (((K.testBit j).toNat : ℚ) * (2 : ℚ) ^ j) =
      (((K.testBit j).toNat * 2 ^ j : Nat) : ℚ) := by push_cast; rfl
  unfold sumStep
  rw [hbit, hp, hcur]
  simp only [Option.bind_eq_bind, Option.some_bind]
  rw [hc, dadd_natCast _ _ hS]
  simp only [Option.some_bind]
  exact store_eq _ _ _ hip

theorem sum_spec (im : List Bool) (ip : Nat) (order : List ℚ) (K n : Nat) (hn : n ≤ 93)
    (hbits : ∀ j, j < n → im[j]? = some (K.testBit j)) (hip : ip < order.length) :
    forUp (sumStep im ip) 0 n (order.set ip 0) =
      some (order.set ip ((roundedSum K n : Nat) : ℚ)) := by
  have key := forUp_inv (sumStep im ip)
    (fun j ord => ord = order.set ip ((roundedSum K j : Nat) : ℚ))
    n 0 (order.set ip 0) (by show order.set ip 0 = order.set ip ((0 : Nat) : ℚ); simp) ?_
  · obtain ⟨s', h1, h2⟩ := key
    rw [h1, h2, Nat.zero_add]
  · intro j t _ hj ht
    have hj' : j < n := by omega
    subst ht
    have hbound : roundedSum K j + (K.testBit j).toNat * 2 ^ j < 2 ^ 1023 := by
      have h1 := roundedSum_le K j
      have h2 : (K.testBit j).toNat * 2 ^ j ≤ 1 * 2 ^ j :=
        Nat.mul_le_mul_right _ (Bool.toNat_le _)
      have h3 : (2 : Nat) ^ j ≤ 2 ^ 93 := Nat.pow_le_pow_right (by decide) (by omega)
      have h4 : j * 2 ^ j ≤ 93 * 2 ^ 93 := Nat.mul_le_mul (by omega) h3
      have h5 : 93 * 2 ^ 93 + 1 * 2 ^ 93 < 2 ^ 1023 := by norm_num
      omega
    refine ⟨_, sumStep_eq im ip j _ K (roundedSum K j) (hbits j hj') (by omega)
      (by rw [List.length_set]; exact hip) (get_set_self _ _ _ hip) hbound, ?_⟩
    rw [List.set_set]
    rfl

theorem hilbertPoint_some (x y z : List ℚ) (b ip : Nat) (xv yv zv : ℚ) (xx yy zz : Int)
    (hb : b ≤ 31) (hx : x[ip]? = some xv) (hy : y[ip]? = some yv) (hz : z[ip]? = some zv)
    (hxx : toInt (xv * 2 ^ b) = some xx) (hyy : toInt (yv * 2 ^ b) = some yy)
    (hzz : toInt (zv * 2 ^ b) = some zz) (m : Masks) (hm : MasksOk b m)
    (order : List ℚ) (hip : ip < order.length) :
    ∃ m', hilbertPoint x y z b ip (m, order) =
        some (m', order.set ip ((pointKey b xx yy zz : Nat) : ℚ)) ∧ MasksOk b m' := by
  obtain ⟨m1, r1, ok1, _, bits1⟩ :=
    extract_spec x y z b ip xv yv zv xx yy zz hb hx hy hz hxx hyy hzz m hm
  obtain ⟨m2, r2, ok2, bits2⟩ :=
    interleave_spec b (bitAt xx) (bitAt yy) (bitAt zz) m1 ok1 bits1
  obtain ⟨im3, r3, len3, _, bits3⟩ :=
    walk_spec (bitAt xx) (bitAt yy) (bitAt zz) b m2.i_bit_mask 0 (by rw [ok2.1]) (by decide)
      bits2
  have r4 := sum_spec im3 ip order
    (walkKey (octant (bitAt xx) (bitAt yy) (bitAt zz)) b 0) (3 * b) (by omega) bits3 hip
  refine ⟨{ m2 with i_bit_mask := im3 }, ?_, ?_⟩
  · unfold hilbertPoint
    simp only [Option.bind_eq_bind, Option.pure_def]
    rw [r1]; simp only [Option.some_bind]
    rw [r2]; simp only [Option.some_bind]
    rw [r3]; simp only [Option.some_bind]
    rw [store_eq _ _ _ hip]; simp only [Option.some_bind]
    rw [r4]; simp only [Option.some_bind]
    rfl
  · obtain ⟨h1, h2, h3, h4⟩ := ok2
    exact ⟨by rw [len3]; exact h1, h2, h3, h4⟩

theorem extract_none (x y z : List ℚ) (b ip : Nat) (xv yv zv : ℚ)
    (hx : x[ip]? = some xv) (hy : y[ip]? = some yv) (hz : z[ip]? = some zv)
    (hres : pointResult b xv yv zv = none) (m : Masks) :
    forUp (extractStep x y z b ip) 0 b m = none := by
  unfold pointResult at hres
  by_cases hb0 : b = 0
  · rw [if_pos hb0] at hres; exact absurd hres (by simp)
  rw [if_neg hb0] at hres
  cases hp : pow2 b with
  | none =>
    apply forUp_none _ 0 _ b 0 m (le_refl _) (by omega)
    intro t; unfold extractStep; rw [hp]; rfl
  | some lx =>
    simp only [hp, Option.bind_eq_bind, Option.some_bind] at hres
    cases hxx : toInt (xv * lx) with
    | none =>
      apply forUp_none _ 0 _ b 0 m (le_refl _) (by omega)
      intro t; unfold extractStep; rw [hp, hx]
      simp only [Option.bind_eq_bind, Option.some_bind, hxx, Option.none_bind]
    | some xx =>
      cases hyy : toInt (yv * lx) with
      | none =>
        apply forUp_none _ 0 _ b 0 m (le_refl _) (by omega)
        intro t; unfold extractStep; rw [hp, hx, hy]
        simp only [Option.bind_eq_bind, Option.some_bind, hxx, hyy, Option.none_bind]
        simp [Option.bind_eq_none]
      | some yy =>
        cases hzz : toInt (zv * lx) with
        | none =>
          apply forUp_none _ 0 _ b 0 m (le_refl _) (by omega)
          intro t; unfold extractStep; rw [hp, hx, hy, hz]
          simp only [Option.bind_eq_bind, Option.some_bind, hxx, hyy, hzz, Option.none_bind]
          simp [Option.bind_eq_none]
        | some zz =>
          simp only [hxx, hyy, hzz, Option.some_bind] at hres
          have hb : ¬ b ≤ 31 := by
            intro h; rw [if_pos h] at hres; exact absurd hres (by simp)
          apply forUp_none _ 31 _ b 0 m (by omega) (by omega)
          intro t; unfold extractStep; rw [hp, hx]
          simp only [Option.bind_eq_bind, Option.some_bind, hxx, btest_none xx 31 (le_refl _),
            Option.none_bind]

theorem hilbertPoint_none (x y z : List ℚ) (b ip : Nat) (xv yv zv : ℚ)
    (hx : x[ip]? = some xv) (hy : y[ip]? = some yv) (hz : z[ip]? = some zv)
    (hres : pointResult b xv yv zv = none) (s : Masks × List ℚ) :
    hilbertPoint x y z b ip s = none := by
  unfold hilbertPoint
  rw [extract_none x y z b ip xv yv zv hx hy hz hres s.1]
  rfl

theorem hilbertPoint_spec (x y z : List ℚ) (b ip : Nat) (xv yv zv : ℚ) (k : Nat)
    (hx : x[ip]? = some xv) (hy : y[ip]? = some yv) (hz : z[ip]? = some zv)
    (hres : pointResult b xv yv zv = some k) (m : Masks) (hm : MasksOk b m)
    (order : List ℚ) (hip : ip < order.length) :
    ∃ m', hilbertPoint x y z b ip (m, order) = some (m', order.set ip (k : ℚ)) ∧
      MasksOk b m' := by
  unfold pointResult at hres
  by_cases hb0 : b = 0
  · rw [if_pos hb0] at hres
    subst hb0
    have hk : k = 0 := by injection hres with h; exact h.symm
    subst hk
    refine ⟨{ m with i_bit_mask := m.i_bit_mask }, ?_, hm⟩
    unfold hilbertPoint
    simp only [forUp, forDown, Option.bind_eq_bind, Option.some_bind, Option.pure_def,
      store_eq _ _ _ hip, Nat.mul_zero, Nat.cast_zero]
  · rw [if_neg hb0] at hres
    cases hp : pow2 b with
    | none => simp [hp] at hres
    | some lx =>
      have hlx : lx = (2 : ℚ) ^ b := by
        unfold pow2 at hp
        by_cases h : b < 1024
        · rw [if_pos h] at hp; injection hp with h'; exact h'.symm
        · rw [if_neg h] at hp; exact absurd hp (by simp)
      simp only [hp, Option.bind_eq_bind, Option.some_bind] at hres
      cases hxx : toInt (xv * lx) with
      | none => simp [hxx] at hres
      | some xx =>
        cases hyy : toInt (yv * lx) with
        | none => simp [hxx, hyy] at hres
        | some yy =>
          cases hzz : toInt (zv * lx) with
          | none => simp [hxx, hyy, hzz] at hres
          | some zz =>
            simp only [hxx, hyy, hzz, Option.some_bind] at hres
            by_cases hb : b ≤ 31
            · rw [if_pos hb] at hres
              injection hres with hk
              subst hk
              rw [hlx] at hxx hyy hzz
              exact hilbertPoint_some x y z b ip xv yv zv xx yy zz hb hx hy hz hxx hyy hzz
                m hm order hip
            · rw [if_neg hb] at hres; exact absurd hres (by simp)

/-! ## The whole function -/

theorem getElem?_eq_some_getD (v : List ℚ) (i : Nat) (h : i < v.length) :
    v[i]? = some (v.getD i 0) := by
  rw [List.getD_eq_getElem?_getD, List.getElem?_eq_getElem h]; rfl

theorem masksOk_init (b : Nat) :
    MasksOk b
      { i_bit_mask := List.replicate (3 * b) false
        x_bit_mask := List.replicate (1 * b) false
        y_bit_mask := List.replicate (1 * b) false
        z_bit_mask := List.replicate (1 * b) false } := by
  refine ⟨?_, ?_, ?_, ?_⟩ <;> simp

theorem hilbert3d_run (x y z order : List ℚ) (b : Nat) (hy : y.length = x.length)
    (hz : z.length = x.length) (hn : x.length < 2 ^ 32) (ho : x.length ≤ order.length)
    (hk : ∀ ip, ip < x.length →
      (pointResult b (x.getD ip 0) (y.getD ip 0) (z.getD ip 0)).isSome = true) :
    ∃ out, hilbert3d x y z order b = some out ∧ out.length = order.length ∧
      (∀ ip, ip < x.length → out[ip]? =
        (pointResult b (x.getD ip 0) (y.getD ip 0) (z.getD ip 0)).map Nat.cast) ∧
      ∀ ip, x.length ≤ ip → out[ip]? = order[ip]? := by
  have key := forUp_inv (hilbertPoint x y z b)
    (fun j s => MasksOk b s.1 ∧ s.2.length = order.length ∧
      (∀ i, i < j → s.2[i]? =
        (pointResult b (x.getD i 0) (y.getD i 0) (z.getD i 0)).map Nat.cast) ∧
      ∀ i, j ≤ i → s.2[i]? = order[i]?)
    x.length 0
    ({ i_bit_mask := List.replicate (3 * b) false
       x_bit_mask := List.replicate (1 * b) false
       y_bit_mask := List.replicate (1 * b) false
       z_bit_mask := List.replicate (1 * b) false }, order)
    ⟨masksOk_init b, rfl, fun i hi => absurd hi (Nat.not_lt_zero i), fun _ _ => rfl⟩ ?_
  · obtain ⟨s', h1, _, h3, h4, h5⟩ := key
    refine ⟨s'.2, ?_, h3, fun i hi => h4 i (by omega), fun i hi => h5 i (by omega)⟩
    unfold hilbert3d
    simp only [Nat.mod_eq_of_lt hn]
    rw [h1]; rfl
  · intro j s _ hj ⟨hm, hl, hdone, hrest⟩
    have hj' : j < x.length := by omega
    obtain ⟨k, hk'⟩ := Option.isSome_iff_exists.mp (hk j hj')
    obtain ⟨m', hrun, hm'⟩ := hilbertPoint_spec x y z b j _ _ _ k
      (getElem?_eq_some_getD x j hj') (getElem?_eq_some_getD y j (by omega))
      (getElem?_eq_some_getD z j (by omega)) hk' s.1 hm s.2 (by omega)
    refine ⟨_, hrun, hm', by rw [List.length_set]; exact hl, ?_, ?_⟩
    · intro i hi
      rcases Nat.eq_or_lt_of_le (Nat.lt_succ_iff.mp hi) with h | h
      · subst h
        show (s.2.set i (k : ℚ))[i]? = _
        rw [get_set_self _ _ _ (by omega), hk']; rfl
      · show (s.2.set j (k : ℚ))[i]? = _
        rw [get_set_other _ _ _ _ (by omega)]; exact hdone i h
    · intro i hi
      show (s.2.set j (k : ℚ))[i]? = _
      rw [get_set_other _ _ _ _ (by omega)]; exact hrest i (by omega)

theorem hilbert3d_fail (x y z order : List ℚ) (b : Nat) (hy : y.length = x.length)
    (hz : z.length = x.length) (hn : x.length < 2 ^ 32) (ip : Nat) (hip : ip < x.length)
    (hk : pointResult b (x.getD ip 0) (y.getD ip 0) (z.getD ip 0) = none) :
    hilbert3d x y z order b = none := by
  unfold hilbert3d
  simp only [Nat.mod_eq_of_lt hn]
  rw [forUp_none (hilbertPoint x y z b) ip
    (hilbertPoint_none x y z b ip _ _ _ (getElem?_eq_some_getD x ip hip)
      (getElem?_eq_some_getD y ip (by omega)) (getElem?_eq_some_getD z ip (by omega)) hk)
    x.length 0 _ (Nat.zero_le _) (by omega)]
  rfl

theorem hilbertKey_eq (xv yv zv : ℚ) (b : Nat) :
    hilbertKey xv yv zv b = (pointResult b xv yv zv).map Nat.cast := by
  unfold hilbertKey
  cases hres : pointResult b xv yv zv with
  | none =>
    rw [hilbert3d_fail [xv] [yv] [zv] [0] b rfl rfl (by simp) 0 (by simp) hres]; rfl
  | some k =>
    obtain ⟨out, h1, _, h3, _⟩ := hilbert3d_run [xv] [yv] [zv] [0] b rfl rfl (by simp)
      (le_refl _) (fun ip hip => by
        have : ip = 0 := by simpa using hip
        subst this
        show (pointResult b xv yv zv).isSome = true
        rw [hres]; rfl)
    have h0 := h3 0 (by simp)
    rw [h1]
    show out[0]? = _
    rw [h0]
    show (pointResult b xv yv zv).map Nat.cast = _
    rw [hres]

/-! ## From points to grid cells -/

theorem toInt_of_floor (d : ℚ) (X : Nat) (h : ⌊d⌋ = (X : ℤ)) (hX : X < 2 ^ 31) :
    toInt d = some (X : ℤ) := by
  have hd : 0 ≤ d := by
    have : ((0 : ℤ) : ℚ) ≤ d := Int.le_floor.mp (by rw [h]; exact Int.ofNat_nonneg X)
    simpa using this
  have hnum : 0 ≤ d.num := Rat.num_nonneg.mpr hd
  have ht : Int.tdiv d.num (d.den : ℤ) = (X : ℤ) := by
    rw [Int.tdiv_eq_ediv hnum (Int.ofNat_nonneg _), ← Rat.floor_def, h]
  unfold toInt
  simp only [ht]
  rw [if_pos]
  constructor
  · have : (0 : ℤ) ≤ (X : ℤ) := Int.ofNat_nonneg X
    omega
  · have : ((X : ℕ) : ℤ) < ((2 ^ 31 : ℕ) : ℤ) := Int.ofNat_lt.mpr hX
    simpa using this

theorem pointResult_of_discretises (b : Nat) (hb1 : 1 ≤ b) (hb : b ≤ 31) (x y z : ℚ)
    (X Y Z : Nat) (hx : Discretises b x X) (hy : Discretises b y Y)
    (hz : Discretises b z Z) :
    pointResult b x y z = some (pointKey b X Y Z) := by
  have hpow : (2 : Nat) ^ b ≤ 2 ^ 31 := Nat.pow_le_pow_right (by decide) hb
  have hp : pow2 b = some ((2 : ℚ) ^ b) := by unfold pow2; rw [if_pos (by omega)]
  unfold pointResult
  rw [if_neg (by omega), hp]
  simp only [Option.bind_eq_bind, Option.some_bind,
    toInt_of_floor _ X hx.1 (by have := hx.2; omega),
    toInt_of_floor _ Y hy.1 (by have := hy.2; omega),
    toInt_of_floor _ Z hz.1 (by have := hz.2; omega)]
  rw [if_pos hb]

theorem discretises_grid (b X : Nat) (hX : X < 2 ^ b) :
    Discretises b ((X : ℚ) / 2 ^ b) X := by
  refine ⟨?_, hX⟩
  have h2 : ((2 : ℚ) ^ b) ≠ 0 := by positivity
  rw [div_mul_cancel₀ _ h2]
  exact Int.floor_natCast X

theorem octant_natCast (X Y Z : Nat) :
    octant (bitAt (X : ℤ)) (bitAt (Y : ℤ)) (bitAt (Z : ℤ)) = refCode X Y Z := by
  funext i
  unfold octant refCode refBit
  rw [bitAt_natCast, bitAt_natCast, bitAt_natCast, Nat.toNat_testBit, Nat.toNat_testBit,
    Nat.toNat_testBit]
  omega

theorem refCode_lt (X Y Z i : Nat) : refCode X Y Z i < 8 := by
  unfold refCode refBit; omega

theorem pointKey_exact (b : Nat) (hb : b ≤ 17) (xx yy zz : Int) :
    pointKey b xx yy zz = walkKey (octant (bitAt xx) (bitAt yy) (bitAt zz)) b 0 := by
  unfold pointKey
  rw [roundedSum_exact _ _ (by omega)]
  apply Nat.mod_eq_of_lt
  have h := walkKey_lt _ (octant_lt (bitAt xx) (bitAt yy) (bitAt zz)) b 0 (by decide)
  have h8 : (8 : Nat) ^ b = 2 ^ (3 * b) := by rw [pow_mul]; rfl
  rw [← h8]; exact h

theorem walkKey_eq_sum (b X Y Z : Nat) :
    ∀ k, k ≤ b → walkKey (refCode X Y Z) k (refState b X Y Z (b - k)) =
      ((List.range k).map (fun i => refDigit b X Y Z i * 8 ^ i)).sum := by
  intro k
  induction k with
  | zero => intro _; rfl
  | succ k ih =>
    intro hk
    have e1 : b - (k + 1) = b - 1 - k := by omega
    have e2 : b - k = (b - 1 - k) + 1 := by omega
    have e3 : b - 1 - (b - 1 - k) = k := by omega
    have hnext : nextState (refState b X Y Z (b - 1 - k)) (refCode X Y Z k) =
        refState b X Y Z (b - k) := by
      rw [e2]
      show _ = (sdRead (refState b X Y Z (b - 1 - k)) 0
        (refCode X Y Z (b - 1 - (b - 1 - k)))).getD 0
      rw [e3]; rfl
    show hdigitOf (refState b X Y Z (b - (k + 1))) (refCode X Y Z k) * 8 ^ k +
      walkKey (refCode X Y Z) k
        (nextState (refState b X Y Z (b - (k + 1))) (refCode X Y Z k)) = _
    rw [e1, hnext, ih (by omega), List.range_succ, List.map_append, List.sum_append,
      List.map_singleton, List.sum_singleton, Nat.add_comm]
    rfl

theorem walkKey_eq_refKey (b X Y Z : Nat) :
    walkKey (refCode X Y Z) b 0 = refKey b X Y Z := by
  have h := walkKey_eq_sum b X Y Z b (le_refl _)
  rw [Nat.sub_self] at h
  exact h

theorem hilbertKey_of_discretises (b : Nat) (hb1 : 1 ≤ b) (hb : b ≤ 17) (x y z : ℚ)
    (X Y Z : Nat) (hx : Discretises b x X) (hy : Discretises b y Y)
    (hz : Discretises b z Z) :
    hilbertKey x y z b = some ((walkKey (refCode X Y Z) b 0 : Nat) : ℚ) := by
  rw [hilbertKey_eq, pointResult_of_discretises b hb1 (by omega) x y z X Y Z hx hy hz,
    pointKey_exact b hb, octant_natCast]
  rfl

theorem walkKey_inj (c c' : Nat → Nat) (hc : ∀ i, c i < 8) (hc' : ∀ i, c' i < 8) :
    ∀ k s, s < 12 → walkKey c k s = walkKey c' k s → ∀ i, i < k → c i = c' i := by
  intro k
  induction k with
  | zero => intro s _ _ i hi; exact absurd hi (Nat.not_lt_zero i)
  | succ k ih =>
    intro s hs heq i hi
    have hP : 0 < 8 ^ k := by positivity
    have hr := walkKey_lt c hc k (nextState s (c k)) (sdRead_next s hs (c k) (hc k)).2
    have hr' := walkKey_lt c' hc' k (nextState s (c' k)) (sdRead_next s hs (c' k) (hc' k)).2
    have heq' : hdigitOf s (c k) * 8 ^ k + walkKey c k (nextState s (c k)) =
        hdigitOf s (c' k) * 8 ^ k + walkKey c' k (nextState s (c' k)) := heq
    have hdiv := congrArg (fun n => n / 8 ^ k) heq'
    simp only [] at hdiv
    rw [Nat.add_comm, Nat.add_mul_div_right _ _ hP, Nat.div_eq_of_lt hr, Nat.zero_add,
      Nat.add_comm, Nat.add_mul_div_right _ _ hP, Nat.div_eq_of_lt hr', Nat.zero_add] at hdiv
    have hck : c k = c' k := hdigitOf_injective s hs (c k) (hc k) (c' k) (hc' k) hdiv
    rcases Nat.eq_or_lt_of_le (Nat.lt_succ_iff.mp hi) with h | h
    · rw [h]; exact hck
    · rw [hdiv, hck] at heq'
      exact ih (nextState s (c' k)) (sdRead_next s hs (c' k) (hc' k)).2
        (by rw [← hck] at heq' ⊢; exact Nat.add_left_cancel heq') i h

theorem refBit_lt (X i : Nat) : refBit X i < 2 := Nat.mod_lt _ (by decide)

theorem eq_of_refBit_eq (b X X' : Nat) (hX : X < 2 ^ b) (hX' : X' < 2 ^ b)
    (h : ∀ i, i < b → refBit X i = refBit X' i) : X = X' := by
  apply Nat.eq_of_testBit_eq
  intro i
  by_cases hi : i < b
  · rw [Nat.testBit_to_div_mod, Nat.testBit_to_div_mod]
    have := h i hi
    unfold refBit at this
    rw [this]
  · have hpow : (2 : Nat) ^ b ≤ 2 ^ i := Nat.pow_le_pow_right (by decide) (by omega)
    rw [Nat.testBit_lt_two_pow (lt_of_lt_of_le hX hpow),
      Nat.testBit_lt_two_pow (lt_of_lt_of_le hX' hpow)]

theorem cell_eq_of_walkKey_eq (b X Y Z X' Y' Z' : Nat) (hX : X < 2 ^ b) (hY : Y < 2 ^ b)
    (hZ : Z < 2 ^ b) (hX' : X' < 2 ^ b) (hY' : Y' < 2 ^ b) (hZ' : Z' < 2 ^ b)
    (h : walkKey (refCode X Y Z) b 0 = walkKey (refCode X' Y' Z') b 0) :
    X = X' ∧ Y = Y' ∧ Z = Z' := by
  have hcodes := walkKey_inj _ _ (refCode_lt X Y Z) (refCode_lt X' Y' Z') b 0 (by decide) h
  have hbits : ∀ i, i < b → refBit X i = refBit X' i ∧ refBit Y i = refBit Y' i ∧
      refBit Z i = refBit Z' i := by
    intro i hi
    have hc := hcodes i hi
    unfold refCode at hc
    have := refBit_lt X i; have := refBit_lt Y i; have := refBit_lt Z i
    have := refBit_lt X' i; have := refBit_lt Y' i; have := refBit_lt Z' i
    omega
  exact ⟨eq_of_refBit_eq b X X' hX hX' (fun i hi => (hbits i hi).1),
    eq_of_refBit_eq b Y Y' hY hY' (fun i hi => (hbits i hi).2.1),
    eq_of_refBit_eq b Z Z' hZ hZ' (fun i hi => (hbits i hi).2.2)⟩

theorem walkKey_surjective (b n : Nat) (hn : n < 8 ^ b) :
    ∃ X Y Z, X < 2 ^ b ∧ Y < 2 ^ b ∧ Z < 2 ^ b ∧ walkKey (refCode X Y Z) b 0 = n := by
  let f : Fin (2 ^ b) × Fin (2 ^ b) × Fin (2 ^ b) → Fin (8 ^ b) := fun p =>
    ⟨walkKey (refCode p.1 p.2.1 p.2.2) b 0,
      walkKey_lt _ (refCode_lt p.1 p.2.1 p.2.2) b 0 (by decide)⟩
  have hinj : Function.Injective f := by
    intro p q hpq
    have hv : walkKey (refCode p.1 p.2.1 p.2.2) b 0 = walkKey (refCode q.1 q.2.1 q.2.2) b 0 :=
      congrArg Fin.val hpq
    obtain ⟨h1, h2, h3⟩ := cell_eq_of_walkKey_eq b _ _ _ _ _ _ p.1.2 p.2.1.2 p.2.2.2
      q.1.2 q.2.1.2 q.2.2.2 hv
    exact Prod.ext (Fin.ext h1) (Prod.ext (Fin.ext h2) (Fin.ext h3))
  have hcard : Fintype.card (Fin (2 ^ b) × Fin (2 ^ b) × Fin (2 ^ b)) =
      Fintype.card (Fin (8 ^ b)) := by
    simp only [Fintype.card_prod, Fintype.card_fin]
    have : (8 : Nat) ^ b = 2 ^ b * (2 ^ b * 2 ^ b) := by
      rw [← pow_add, ← pow_add, show (8 : Nat) = 2 ^ 3 from rfl, ← pow_mul]
      congr 1; omega
    rw [this]
  have hsurj := ((Fintype.bijective_iff_injective_and_card f).mpr ⟨hinj, hcard⟩).2
  obtain ⟨p, hp⟩ := hsurj ⟨n, hn⟩
  exact ⟨p.1, p.2.1, p.2.2, p.1.2, p.2.1.2, p.2.2.2, congrArg Fin.val hp⟩

theorem hilbertKey_grid (b : Nat) (hb1 : 1 ≤ b) (hb : b ≤ 31) (X Y Z : Nat)
    (hX : X < 2 ^ b) (hY : Y < 2 ^ b) (hZ : Z < 2 ^ b) :
    hilbertKey ((X : ℚ) / 2 ^ b) ((Y : ℚ) / 2 ^ b) ((Z : ℚ) / 2 ^ b) b =
      some ((pointKey b X Y Z : Nat) : ℚ) := by
  rw [hilbertKey_eq, pointResult_of_discretises b hb1 hb _ _ _ X Y Z
    (discretises_grid b X hX) (discretises_grid b Y hY) (discretises_grid b Z hZ)]
  rfl

theorem pointKey_grid (b : Nat) (hb : b ≤ 17) (X Y Z : Nat) :
    pointKey b X Y Z = walkKey (refCode X Y Z) b 0 := by
  rw [pointKey_exact b hb, octant_natCast]

theorem hilbert3d_single (xv yv zv q : ℚ) (b k : Nat)
    (h : pointResult b xv yv zv = some k) :
    hilbert3d [xv] [yv] [zv] [q] b = some [(k : ℚ)] := by
  obtain ⟨out, h1, h2, h3, _⟩ := hilbert3d_run [xv] [yv] [zv] [q] b rfl rfl (by simp)
    (le_refl _) (fun ip hip => by
      have : ip = 0 := by simpa using hip
      subst this
      show (pointResult b xv yv zv).isSome = true
      rw [h]; rfl)
  have h0 : out[0]? = (pointResult b xv yv zv).map Nat.cast := h3 0 (by simp)
  rw [h] at h0
  rw [h1]
  match out, h2, h0 with
  | [a], _, h0 =>
    have : a = (k : ℚ) := by simpa using h0
    rw [this]

theorem cellAt_key_3 : ∀ k : Nat, k < 512 →
    (cellAt 3 0 k).1 < 2 ^ 3 ∧ (cellAt 3 0 k).2.1 < 2 ^ 3 ∧ (cellAt 3 0 k).2.2 < 2 ^ 3 ∧
    walkKey (refCode (cellAt 3 0 k).1 (cellAt 3 0 k).2.1 (cellAt 3 0 k).2.2) 3 0 = k := by
  decide!

theorem cellAt_adjacent_3 : ∀ k : Nat, k < 511 →
    chebyshev (cellAt 3 0 k) (cellAt 3 0 (k + 1)) = 1 := by
  decide!

theorem cell_eq_cellAt_3 (X Y Z : Nat) (hX : X < 2 ^ 3) (hY : Y < 2 ^ 3) (hZ : Z < 2 ^ 3) :
    (X, Y, Z) = cellAt 3 0 (walkKey (refCode X Y Z) 3 0) := by
  have hlt : walkKey (refCode X Y Z) 3 0 < 512 :=
    walkKey_lt _ (refCode_lt X Y Z) 3 0 (by decide)
  obtain ⟨h1, h2, h3, h4⟩ := cellAt_key_3 _ hlt
  obtain ⟨e1, e2, e3⟩ := cell_eq_of_walkKey_eq 3 _ _ _ X Y Z h1 h2 h3 hX hY hZ h4
  exact Prod.ext e1.symm (Prod.ext e2.symm e3.symm)

/-! ## Theorems on the Hilbert keys -/

set_option maxRecDepth 100000

/-- C3, at a bit length of 18: the point of the cell `(131072, 262142, 131071)`
has the reference key `2^53 + 1`, and `hilbert3d` writes `2^53`, the nearest
`double`. -/
theorem hilbertKey_ne_refKey_18 :
    Discretises 18 (((131072 : ℕ) : ℚ) / 2 ^ 18) 131072 ∧
    Discretises 18 (((262142 : ℕ) : ℚ) / 2 ^ 18) 262142 ∧
    Discretises 18 (((131071 : ℕ) : ℚ) / 2 ^ 18) 131071 ∧
    refKey 18 131072 262142 131071 = 9007199254740993 ∧
    hilbertKey (((131072 : ℕ) : ℚ) / 2 ^ 18) (((262142 : ℕ) : ℚ) / 2 ^ 18)
      (((131071 : ℕ) : ℚ) / 2 ^ 18) 18 = some ((9007199254740992 : ℕ) : ℚ) := by
  refine ⟨discretises_grid 18 _ (by decide), discretises_grid 18 _ (by decide),
    discretises_grid 18 _ (by decide), ?_, ?_⟩
  · rw [← walkKey_eq_refKey]; decide
  · rw [hilbertKey_grid 18 (by decide) (by decide) _ _ _ (by decide) (by decide) (by decide)]
    have h : pointKey 18 ((131072 : ℕ) : ℤ) ((262142 : ℕ) : ℤ) ((131071 : ℕ) : ℤ) =
        9007199254740992 := by decide
    rw [h]

/-- C3 (amended to bit lengths 1..17): for every point whose coordinates
discretise to `X`, `Y`, `Z` in `[0, 2^b)`, the key `hilbert3d` writes is the
reference key: the sum over `i < b` of `d_i * 8^i` of the state machine started in
state 0 at level `b-1`, with octant code `4*bit_i(X) + 2*bit_i(Y) + bit_i(Z)`. -/
theorem hilbertKey_eq_refKey (b : Nat) (hb1 : 1 ≤ b) (hb : b ≤ 17) (x y z : ℚ)
    (X Y Z : Nat) (hx : Discretises b x X) (hy : Discretises b y Y)
    (hz : Discretises b z Z) :
    hilbertKey x y z b = some ((refKey b X Y Z : Nat) : ℚ) := by
  rw [hilbertKey_of_discretises b hb1 hb x y z X Y Z hx hy hz, walkKey_eq_refKey]

theorem hilbertKey_eq_refKey_witness :
    hilbertKey (((5 : ℕ) : ℚ) / 2 ^ 3) (((2 : ℕ) : ℚ) / 2 ^ 3) (((3 : ℕ) : ℚ) / 2 ^ 3) 3 =
      some ((refKey 3 5 2 3 : Nat) : ℚ) :=
  hilbertKey_eq_refKey 3 (by decide) (by decide) _ _ _ 5 2 3
    (discretises_grid 3 5 (by decide)) (discretises_grid 3 2 (by decide))
    (discretises_grid 3 3 (by decide))

/-- C5, at a bit length of 18: the point of the cell `(262143, 0, 0)`, the last
one of the curve, gets the key `2^54`, which is above `2^(3*18) - 1`: the exact
sum `2^54 - 1` is not a `double` and rounds up. -/
theorem hilbertKey_out_of_range_18 :
    hilbertKey (((262143 : ℕ) : ℚ) / 2 ^ 18) (((0 : ℕ) : ℚ) / 2 ^ 18)
      (((0 : ℕ) : ℚ) / 2 ^ 18) 18 = some ((18014398509481984 : ℕ) : ℚ) ∧
    ¬ (18014398509481984 ≤ 2 ^ (3 * 18) - 1) := by
  refine ⟨?_, by decide⟩
  rw [hilbertKey_grid 18 (by decide) (by decide) _ _ _ (by decide) (by decide) (by decide)]
  have h : pointKey 18 ((262143 : ℕ) : ℤ) ((0 : ℕ) : ℤ) ((0 : ℕ) : ℤ) =
      18014398509481984 := by decide
  rw [h]

/-- C5 (amended to bit lengths 1..17): for every input point, `hilbert3d` writes
a key exactly when the three scaled coordinates convert to `int`, and the key
written is a natural number in `[0, 2^(3b) - 1]`. -/
theorem hilbertKey_range (b : Nat) (hb1 : 1 ≤ b) (hb : b ≤ 17) (x y z : ℚ) :
    ((hilbertKey x y z b).isSome =
      ((toInt (x * 2 ^ b)).isSome && (toInt (y * 2 ^ b)).isSome &&
        (toInt (z * 2 ^ b)).isSome)) ∧
    ∀ k, hilbertKey x y z b = some k → ∃ n : Nat, k = (n : ℚ) ∧ n ≤ 2 ^ (3 * b) - 1 := by
  have hp : pow2 b = some ((2 : ℚ) ^ b) := by unfold pow2; rw [if_pos (by omega)]
  have hres : pointResult b x y z =
      (toInt (x * 2 ^ b)).bind (fun xx => (toInt (y * 2 ^ b)).bind (fun yy =>
        (toInt (z * 2 ^ b)).bind (fun zz => some (pointKey b xx yy zz)))) := by
    unfold pointResult
    rw [if_neg (by omega), hp]
    simp only [Option.bind_eq_bind, Option.some_bind, if_pos (show b ≤ 31 by omega)]
  rw [hilbertKey_eq, hres]
  cases toInt (x * 2 ^ b) with
  | none => exact ⟨rfl, fun k hk => by simp at hk⟩
  | some xx =>
    cases toInt (y * 2 ^ b) with
    | none => exact ⟨rfl, fun k hk => by simp at hk⟩
    | some yy =>
      cases toInt (z * 2 ^ b) with
      | none => exact ⟨rfl, fun k hk => by simp at hk⟩
      | some zz =>
        refine ⟨rfl, fun k hk => ⟨pointKey b xx yy zz, ?_, ?_⟩⟩
        · simp only [Option.some_bind, Option.map_some', Option.some.injEq] at hk
          exact hk.symm
        · rw [pointKey_exact b hb]
          have h := walkKey_lt _ (octant_lt (bitAt xx) (bitAt yy) (bitAt zz)) b 0 (by decide)
          have h8 : (8 : Nat) ^ b = 2 ^ (3 * b) := by rw [pow_mul]; rfl
          rw [h8] at h
          omega

theorem hilbertKey_range_witness :
    ((hilbertKey (6 / 10) (6 / 10) (6 / 10) 1).isSome =
      ((toInt ((6 / 10 : ℚ) * 2 ^ 1)).isSome && (toInt ((6 / 10 : ℚ) * 2 ^ 1)).isSome &&
        (toInt ((6 / 10 : ℚ) * 2 ^ 1)).isSome)) ∧
    ∀ k, hilbertKey (6 / 10) (6 / 10) (6 / 10) 1 = some k →
      ∃ n : Nat, k = (n : ℚ) ∧ n ≤ 2 ^ (3 * 1) - 1 :=
  hilbertKey_range 1 (by decide) (by decide) (6 / 10) (6 / 10) (6 / 10)

/-- C4, at a bit length of 18: the two different cells `(131073, 262143, 131071)`
and `(131073, 262143, 131070)`, with the exact keys `2^53 + 3` and `2^53 + 4`, get
the same key `2^53 + 4` from `hilbert3d`. -/
theorem hilbertKey_collision_18 :
    hilbertKey (((131073 : ℕ) : ℚ) / 2 ^ 18) (((262143 : ℕ) : ℚ) / 2 ^ 18)
      (((131071 : ℕ) : ℚ) / 2 ^ 18) 18 = some ((9007199254740996 : ℕ) : ℚ) ∧
    hilbertKey (((131073 : ℕ) : ℚ) / 2 ^ 18) (((262143 : ℕ) : ℚ) / 2 ^ 18)
      (((131070 : ℕ) : ℚ) / 2 ^ 18) 18 = some ((9007199254740996 : ℕ) : ℚ) ∧
    Discretises 18 (((131071 : ℕ) : ℚ) / 2 ^ 18) 131071 ∧
    Discretises 18 (((131070 : ℕ) : ℚ) / 2 ^ 18) 131070 ∧ (131071 : ℕ) ≠ 131070 := by
  refine ⟨?_, ?_, discretises_grid 18 _ (by decide), discretises_grid 18 _ (by decide),
    by decide⟩
  · rw [hilbertKey_grid 18 (by decide) (by decide) _ _ _ (by decide) (by decide) (by decide)]
    have h : pointKey 18 ((131073 : ℕ) : ℤ) ((262143 : ℕ) : ℤ) ((131071 : ℕ) : ℤ) =
        9007199254740996 := by decide
    rw [h]
  · rw [hilbertKey_grid 18 (by decide) (by decide) _ _ _ (by decide) (by decide) (by decide)]
    have h : pointKey 18 ((131073 : ℕ) : ℤ) ((262143 : ℕ) : ℤ) ((131070 : ℕ) : ℤ) =
        9007199254740996 := by decide
    rw [h]

/-- C4 (amended to bit lengths 1..17): two points that discretise to the grid
cells `(X, Y, Z)` and `(X', Y', Z')` get keys below `8^b` that are equal exactly
when the cells are equal, and every number below `8^b` is the key of a grid cell:
the map from the `8^b` cells to the keys is a bijection onto `{0, ..., 8^b - 1}`. -/
theorem hilbertKey_bijective (b : Nat) (hb1 : 1 ≤ b) (hb : b ≤ 17) :
    (∀ (x y z x' y' z' : ℚ) (X Y Z X' Y' Z' : Nat),
      Discretises b x X → Discretises b y Y → Discretises b z Z →
      Discretises b x' X' → Discretises b y' Y' → Discretises b z' Z' →
      ∃ k k' : Nat, hilbertKey x y z b = some (k : ℚ) ∧
        hilbertKey x' y' z' b = some (k' : ℚ) ∧ k < 8 ^ b ∧ k' < 8 ^ b ∧
        (k = k' ↔ X = X' ∧ Y = Y' ∧ Z = Z')) ∧
    ∀ n : Nat, n < 8 ^ b → ∃ X Y Z : Nat, X < 2 ^ b ∧ Y < 2 ^ b ∧ Z < 2 ^ b ∧
      hilbertKey ((X : ℚ) / 2 ^ b) ((Y : ℚ) / 2 ^ b) ((Z : ℚ) / 2 ^ b) b =
        some (n : ℚ) := by
  constructor
  · intro x y z x' y' z' X Y Z X' Y' Z' hx hy hz hx' hy' hz'
    refine ⟨walkKey (refCode X Y Z) b 0, walkKey (refCode X' Y' Z') b 0,
      hilbertKey_of_discretises b hb1 hb x y z X Y Z hx hy hz,
      hilbertKey_of_discretises b hb1 hb x' y' z' X' Y' Z' hx' hy' hz',
      walkKey_lt _ (refCode_lt X Y Z) b 0 (by decide),
      walkKey_lt _ (refCode_lt X' Y' Z') b 0 (by decide), ?_⟩
    constructor
    · exact cell_eq_of_walkKey_eq b X Y Z X' Y' Z' hx.2 hy.2 hz.2 hx'.2 hy'.2 hz'.2
    · rintro ⟨h1, h2, h3⟩; rw [h1, h2, h3]
  · intro n hn
    obtain ⟨X, Y, Z, hX, hY, hZ, hk⟩ := walkKey_surjective b n hn
    refine ⟨X, Y, Z, hX, hY, hZ, ?_⟩
    rw [hilbertKey_grid b hb1 (by omega) X Y Z hX hY hZ, pointKey_grid b hb, hk]

theorem hilbertKey_bijective_witness :
    (∀ (x y z x' y' z' : ℚ) (X Y Z X' Y' Z' : Nat),
      Discretises 2 x X → Discretises 2 y Y → Discretises 2 z Z →
      Discretises 2 x' X' → Discretises 2 y' Y' → Discretises 2 z' Z' →
      ∃ k k' : Nat, hilbertKey x y z 2 = some (k : ℚ) ∧
        hilbertKey x' y' z' 2 = some (k' : ℚ) ∧ k < 8 ^ 2 ∧ k' < 8 ^ 2 ∧
        (k = k' ↔ X = X' ∧ Y = Y' ∧ Z = Z')) ∧
    ∀ n : Nat, n < 8 ^ 2 → ∃ X Y Z : Nat, X < 2 ^ 2 ∧ Y < 2 ^ 2 ∧ Z < 2 ^ 2 ∧
      hilbertKey ((X : ℚ) / 2 ^ 2) ((Y : ℚ) / 2 ^ 2) ((Z : ℚ) / 2 ^ 2) 2 =
        some (n : ℚ) :=
  hilbertKey_bijective 2 (by decide) (by decide)

/-- C9: with `bit_length = 1` and the point `(0.6, 0.6, 0.6)` each scaled
coordinate converts to the `int` 1, whose bit 0 is set, the octant code is 7, the
traversal is the single step at level 0 in state 0, that step reads
`state_diagram[0][1][7] = 5` and leaves the bits of 5 in the mask, and the key
`hilbert3d` writes is 5. The same holds for the `double` nearest to 0.6. -/
theorem hilbert3d_scenario :
    toInt ((6 / 10 : ℚ) * 2 ^ 1) = some 1 ∧ bitAt 1 0 = true ∧
    octant (bitAt 1) (bitAt 1) (bitAt 1) 0 = 7 ∧
    (∀ s : List Bool × Nat, forDown walkStep 1 s = walkStep 0 s) ∧
    walkStep 0 ([true, true, true], 0) = some ([true, false, true], 5) ∧
    sdRead 0 1 7 = some 5 ∧
    (∀ q : ℚ, hilbert3d [6 / 10] [6 / 10] [6 / 10] [q] 1 = some [5]) ∧
    hilbertKey (6 / 10) (6 / 10) (6 / 10) 1 = some 5 ∧
    hilbertKey (5404319552844595 / 9007199254740992) (5404319552844595 / 9007199254740992)
      (5404319552844595 / 9007199254740992) 1 = some 5 := by
  have hfl : ⌊(6 / 10 : ℚ) * 2 ^ 1⌋ = ((1 : ℕ) : ℤ) := by
    rw [Int.floor_eq_iff]; norm_num
  have hfl' : ⌊(5404319552844595 / 9007199254740992 : ℚ) * 2 ^ 1⌋ = ((1 : ℕ) : ℤ) := by
    rw [Int.floor_eq_iff]; norm_num
  have hd : Discretises 1 (6 / 10) 1 := ⟨hfl, by decide⟩
  have hd' : Discretises 1 (5404319552844595 / 9007199254740992) 1 := ⟨hfl', by decide⟩
  have hk : pointKey 1 ((1 : ℕ) : ℤ) ((1 : ℕ) : ℤ) ((1 : ℕ) : ℤ) = 5 := by decide
  have hres : pointResult 1 (6 / 10) (6 / 10) (6 / 10) = some 5 := by
    rw [pointResult_of_discretises 1 (by decide) (by decide) _ _ _ 1 1 1 hd hd hd, hk]
  have hres' : pointResult 1 (5404319552844595 / 9007199254740992)
      (5404319552844595 / 9007199254740992) (5404319552844595 / 9007199254740992) =
      some 5 := by
    rw [pointResult_of_discretises 1 (by decide) (by decide) _ _ _ 1 1 1 hd' hd' hd', hk]
  refine ⟨toInt_of_floor _ 1 hfl (by decide), by decide, by decide, ?_, by decide, by decide,
    ?_, ?_, ?_⟩
  · intro s
    show (walkStep 0 s).bind (forDown walkStep 0) = walkStep 0 s
    cases walkStep 0 s <;> rfl
  · intro q
    have := hilbert3d_single (6 / 10) (6 / 10) (6 / 10) q 1 5 hres
    simpa using this
  · rw [hilbertKey_eq, hres]; simp
  · rw [hilbertKey_eq, hres']; simp

/-- C6: at `bit_length = 3` every key `0..511` is the key of a cell of the
`8*8*8` grid, and whenever two points discretise to cells whose keys are `k` and
`k + 1`, the two cells are at Chebyshev distance exactly 1. -/
theorem hilbert_locality_3 :
    (∀ n : Nat, n < 512 → ∃ X Y Z : Nat, X < 8 ∧ Y < 8 ∧ Z < 8 ∧
      hilbertKey ((X : ℚ) / 2 ^ 3) ((Y : ℚ) / 2 ^ 3) ((Z : ℚ) / 2 ^ 3) 3 = some (n : ℚ)) ∧
    ∀ (x y z x' y' z' : ℚ) (X Y Z X' Y' Z' : Nat) (k : ℚ),
      Discretises 3 x X → Discretises 3 y Y → Discretises 3 z Z →
      Discretises 3 x' X' → Discretises 3 y' Y' → Discretises 3 z' Z' →
      hilbertKey x y z 3 = some k → hilbertKey x' y' z' 3 = some (k + 1) →
      chebyshev (X, Y, Z) (X', Y', Z') = 1 := by
  constructor
  · intro n hn
    obtain ⟨X, Y, Z, hX, hY, hZ, hk⟩ := walkKey_surjective 3 n hn
    refine ⟨X, Y, Z, hX, hY, hZ, ?_⟩
    rw [hilbertKey_grid 3 (by decide) (by decide) X Y Z hX hY hZ,
      pointKey_grid 3 (by decide), hk]
  · intro x y z x' y' z' X Y Z X' Y' Z' k hx hy hz hx' hy' hz' hk hk'
    rw [hilbertKey_of_discretises 3 (by decide) (by decide) x y z X Y Z hx hy hz] at hk
    rw [hilbertKey_of_discretises 3 (by decide) (by decide) x' y' z' X' Y' Z' hx' hy' hz']
      at hk'
    injection hk with hk
    injection hk' with hk'
    have hsucc : walkKey (refCode X' Y' Z') 3 0 = walkKey (refCode X Y Z) 3 0 + 1 := by
      have : ((walkKey (refCode X' Y' Z') 3 0 : Nat) : ℚ) =
          ((walkKey (refCode X Y Z) 3 0 + 1 : Nat) : ℚ) := by
        rw [hk', ← hk]; push_cast; rfl
      exact Nat.cast_injective this
    have hlt : walkKey (refCode X' Y' Z') 3 0 < 512 :=
      walkKey_lt _ (refCode_lt X' Y' Z') 3 0 (by decide)
    rw [cell_eq_cellAt_3 X Y Z hx.2 hy.2 hz.2, cell_eq_cellAt_3 X' Y' Z' hx'.2 hy'.2 hz'.2,
      hsucc]
    exact cellAt_adjacent_3 _ (by omega)

theorem hilbert_locality_3_witness :
    chebyshev (0, 0, 0) (1, 0, 0) = 1 :=
  hilbert_locality_3.2 _ _ _ _ _ _ 0 0 0 1 0 0 0
    (discretises_grid 3 0 (by decide)) (discretises_grid 3 0 (by decide))
    (discretises_grid 3 0 (by decide)) (discretises_grid 3 1 (by decide))
    (discretises_grid 3 0 (by decide)) (discretises_grid 3 0 (by decide))
    (by
      rw [hilbertKey_grid 3 (by decide) (by decide) 0 0 0 (by decide) (by decide) (by decide)]
      have h : pointKey 3 ((0 : ℕ) : ℤ) ((0 : ℕ) : ℤ) ((0 : ℕ) : ℤ) = 0 := by decide
      rw [h]; simp)
    (by
      rw [hilbertKey_grid 3 (by decide) (by decide) 1 0 0 (by decide) (by decide) (by decide)]
      have h : pointKey 3 ((1 : ℕ) : ℤ) ((0 : ℕ) : ℤ) ((0 : ℕ) : ℤ) = 1 := by decide
      rw [h]; simp)

/-! ## More on the bisection: clamping, range of the result, termination -/

theorem locateLoop_fuel_succ (x : ℚ) (vx : List ℚ) (ascnd : Bool) :
    ∀ (fuel jl ju r : Nat), locateLoop x vx ascnd fuel jl ju = some r →
      locateLoop x vx ascnd (fuel + 1) jl ju = some r := by
  intro fuel
  induction fuel with
  | zero => intro jl ju r h; exact absurd h (by simp [locateLoop])
  | succ fuel ih =>
    intro jl ju r h
    unfold locateLoop at h ⊢
    by_cases hgt : 1 < (ju + 2 ^ 64 - jl) % 2 ^ 64
    · rw [if_pos hgt] at h ⊢
      cases hv : vx[((ju + jl) % 2 ^ 64) >>> 1]? with
      | none => simp only [hv] at h; exact absurd h (by simp)
      | some v =>
        simp only [hv] at h ⊢
        by_cases hc : (decide (x ≥ v) == ascnd) = true
        · rw [if_pos hc] at h ⊢; exact ih _ _ _ h
        · rw [if_neg hc] at h ⊢; exact ih _ _ _ h
    · rw [if_neg hgt] at h ⊢; exact h

theorem locateLoop_fuel_add (x : ℚ) (vx : List ℚ) (ascnd : Bool) (fuel jl ju r : Nat)
    (h : locateLoop x vx ascnd fuel jl ju = some r) :
    ∀ extra, locateLoop x vx ascnd (fuel + extra) jl ju = some r := by
  intro extra
  induction extra with
  | zero => exact h
  | succ extra ih => exact locateLoop_fuel_succ x vx ascnd (fuel + extra) jl ju r ih

theorem locateLoop_single (x : ℚ) (vx : List ℚ) (ascnd : Bool) (fuel : Nat) :
    locateLoop x vx ascnd (fuel + 1) 0 0 = some 0 := by
  unfold locateLoop
  rw [if_neg (by omega)]

theorem locate_single (x : ℚ) (vx : List ℚ) (hn : vx.length = 1) : locate x vx = some 0 := by
  match vx, hn with
  | [a], _ =>
    unfold locate
    have h1 : (([a] : List ℚ).length + 2 ^ 64 - 1) % 2 ^ 64 = 0 := by
      show (1 + 2 ^ 64 - 1) % 2 ^ 64 = 0
      omega
    have h2 : (([a] : List ℚ).length + 2 ^ 64 - 2) % 2 ^ 64 = 2 ^ 64 - 1 := by
      show (1 + 2 ^ 64 - 2) % 2 ^ 64 = 2 ^ 64 - 1
      omega
    rw [h1, h2]
    have hl : locateLoop x [a] (decide (a ≥ a)) ([a] : List ℚ).length 0 0 = some 0 :=
      locateLoop_single x [a] _ 0
    simp only [List.getElem?_cons_zero, Option.bind_eq_bind, Option.some_bind, Option.pure_def,
      hl]
    rfl

/-- C11: for every ascending (sorted) boundary table `vx` of length `n >= 2`
(short enough for the `unsigned` result), a key below the first boundary gives
`locate(key, vx) = 0` and a key at or above the last boundary gives
`locate(key, vx) = n - 2`. -/
theorem locate_clamps (key : ℚ) (vx : List ℚ) (hn : 2 ≤ vx.length)
    (hlen : vx.length ≤ 2 ^ 32 + 1) (hsorted : List.Sorted (· ≤ ·) vx) :
    (key < vx.getD 0 0 → locate key vx = some 0) ∧
    (vx.getD (vx.length - 1) 0 ≤ key → locate key vx = some (vx.length - 2)) := by
  obtain ⟨r, hr, h1, h2, h3⟩ := locate_bracket key vx hn hlen
  have hasc : ascending vx = true := by
    unfold ascending
    exact decide_eq_true (sorted_getD_le vx hsorted 0 (vx.length - 1) (by omega) (by omega))
  constructor
  · intro hlo
    rcases h2 with h2 | h2
    · rw [hr, h2]
    · have hle := sorted_getD_le vx hsorted 0 r (by omega) (by omega)
      have hge : vx.getD r 0 ≤ key := by simpa [goesUp, hasc] using h2
      exact absurd (lt_of_le_of_lt (le_trans hle hge) hlo) (lt_irrefl _)
  · intro hhi
    rcases h3 with h3 | h3
    · rw [hr]
      have : r = vx.length - 2 := by omega
      rw [this]
    · have hle := sorted_getD_le vx hsorted (r + 1) (vx.length - 1) (by omega) (by omega)
      have hlt : key < vx.getD (r + 1) 0 := by simpa [goesUp, hasc] using h3
      exact absurd (lt_of_lt_of_le hlt (le_trans hle hhi)) (lt_irrefl _)

theorem locate_clamps_witness :
    locate (-3) [0, 10, 25, 40] = some 0 ∧
    locate 40 [0, 10, 25, 40] = some ([(0 : ℚ), 10, 25, 40].length - 2) :=
  ⟨(locate_clamps (-3) [0, 10, 25, 40] (by decide) (by simp)
      (by norm_num [List.Sorted])).1 (by norm_num),
   (locate_clamps 40 [0, 10, 25, 40] (by decide) (by simp)
      (by norm_num [List.Sorted])).2 (by norm_num)⟩

/-- C17: for every table `ind_min` of length `ncpu >= 1` (an `unsigned` count,
at most `2^32`; monotonic or not) and every key, `locate` stays inside the table
(it returns, with an index below `ncpu`) and `getdomain_bykey` returns a domain
id `d` with `1 <= d <= ncpu`; for `ncpu = 1`, where `vx.size()-2` wraps around,
`locate` returns 0 and `getdomain_bykey` returns 1. -/
theorem getdomain_bykey_range (s : snapshot) (key : ℚ) (hn : 1 ≤ s.ind_min.length)
    (hlen : s.ind_min.length ≤ 2 ^ 32) :
    ∃ i d, locate key s.ind_min = some i ∧ i < s.ind_min.length ∧
      getdomain_bykey s key = some d ∧ 1 ≤ d ∧ d ≤ s.ind_min.length ∧
      (s.ind_min.length = 1 → i = 0 ∧ d = 1) := by
  have hdom : ∀ i, locate key s.ind_min = some i → i + 1 < 2 ^ 32 + 1 →
      getdomain_bykey s key = some ((i + 1) % 2 ^ 32) := by
    intro i hi _
    unfold getdomain_bykey
    rw [hi]
    rfl
  rcases Nat.eq_or_lt_of_le hn with h1 | h2
  · have hloc := locate_single key s.ind_min h1.symm
    refine ⟨0, 1, hloc, by omega, ?_, le_refl _, by omega, fun _ => ⟨rfl, rfl⟩⟩
    rw [hdom 0 hloc (by omega)]
    rfl
  · obtain ⟨r, hr, hr2, _, _⟩ := locate_bracket key s.ind_min (by omega) (by omega)
    refine ⟨r, r + 1, hr, by omega, ?_, by omega, by omega, fun h => by omega⟩
    rw [hdom r hr (by omega), Nat.mod_eq_of_lt (by omega)]

theorem getdomain_bykey_range_witness :
    ∃ i d, locate 30 (snapshot.mk 1 [7] [9]).ind_min = some i ∧
      i < (snapshot.mk 1 [7] [9]).ind_min.length ∧
      getdomain_bykey (snapshot.mk 1 [7] [9]) 30 = some d ∧ 1 ≤ d ∧
      d ≤ (snapshot.mk 1 [7] [9]).ind_min.length ∧
      ((snapshot.mk 1 [7] [9]).ind_min.length = 1 → i = 0 ∧ d = 1) :=
  getdomain_bykey_range (snapshot.mk 1 [7] [9]) 30 (by decide) (by simp)

/-- C18: for every table of length `n >= 1` (below `2^63`, so that `ju + jl` does
not wrap; monotonic or not) and every key, the loop of `locate` terminates: there
is a result that every run with at least `n` iterations allowed returns. The
reason: in a state with `jl < ju` and `ju - jl > 1`
the midpoint `jm = (ju + jl) >> 1` satisfies `jl < jm < ju`, so both `jm - jl` and
`ju - jm` are smaller than `ju - jl` and the new bracket again has `jl < ju`. -/
theorem locate_terminates (x : ℚ) (vx : List ℚ) (ascnd : Bool) (hn : 1 ≤ vx.length)
    (hlen : vx.length < 2 ^ 63) :
    (∃ r, ∀ fuel, vx.length ≤ fuel →
      locateLoop x vx ascnd fuel 0 ((vx.length + 2 ^ 64 - 1) % 2 ^ 64) = some r) ∧
    (∀ jl ju : Nat, jl < ju → ju < 2 ^ 63 → 1 < (ju + 2 ^ 64 - jl) % 2 ^ 64 →
      jl < ((ju + jl) % 2 ^ 64) >>> 1 ∧ ((ju + jl) % 2 ^ 64) >>> 1 < ju ∧
      ((ju + jl) % 2 ^ 64) >>> 1 - jl < ju - jl ∧
      ju - ((ju + jl) % 2 ^ 64) >>> 1 < ju - jl) := by
  have hlast : (vx.length + 2 ^ 64 - 1) % 2 ^ 64 = vx.length - 1 := by omega
  constructor
  · rw [hlast]
    have hbase : ∃ r, locateLoop x vx ascnd vx.length 0 (vx.length - 1) = some r := by
      rcases Nat.eq_or_lt_of_le hn with h1 | h2
      · refine ⟨0, ?_⟩
        rw [← h1]
        exact locateLoop_single x vx ascnd 0
      · obtain ⟨r, hr, _⟩ := locateLoop_bracket x vx ascnd vx.length 0 (vx.length - 1)
          (by omega) (by omega) hlen (by omega)
        exact ⟨r, hr⟩
    obtain ⟨r, hr⟩ := hbase
    refine ⟨r, fun fuel hf => ?_⟩
    have := locateLoop_fuel_add x vx ascnd vx.length 0 (vx.length - 1) r hr (fuel - vx.length)
    rw [Nat.add_sub_cancel' hf] at this
    exact this
  · intro jl ju h1 h2 h3
    have hs : ((ju + jl) % 2 ^ 64) >>> 1 = (ju + jl) / 2 := by
      rw [Nat.shiftRight_eq_div_pow, Nat.mod_eq_of_lt (by omega)]
    rw [hs]
    have hw : (ju + 2 ^ 64 - jl) % 2 ^ 64 = ju - jl := by omega
    rw [hw] at h3
    omega

theorem locate_terminates_witness :
    (∃ r, ∀ fuel, [(0 : ℚ), 10, 25].length ≤ fuel →
      locateLoop 7 [0, 10, 25] true fuel 0
        (([(0 : ℚ), 10, 25].length + 2 ^ 64 - 1) % 2 ^ 64) = some r) :=
  (locate_terminates 7 [0, 10, 25] true (by decide) (by simp)).1

/-! ## Lemmas on reading the info file -/

theorem Outcome.bind_eq_ok {α β : Type} (o : Outcome α) (f : α → Outcome β) (b : β)
    (h : o.bind f = .ok b) : ∃ a, o = .ok a ∧ f a = .ok b := by
  cases o with
  | ok a => exact ⟨a, rfl, h⟩
  | corrupt i => exact absurd h (by simp [Outcome.bind])
  | ioFailure => exact absurd h (by simp [Outcome.bind])
  | undefined => exact absurd h (by simp [Outcome.bind])

theorem getline_ok (ifs : List (List Char)) (r : List Char × List (List Char))
    (h : getline ifs = .ok r) : ifs = r.1 :: r.2 := by
  cases ifs with
  | nil => exact absurd h (by simp [getline])
  | cons buf rest =>
    have : r = (buf, rest) := by
      simp only [getline, Outcome.ok.injEq] at h
      exact h.symm
    rw [this]

theorem read_line_rhs_ok (ifs : List (List Char)) (r : List Char × List (List Char))
    (h : read_line_rhs ifs = .ok r) : ∃ l, ifs = l :: r.2 := by
  unfold read_line_rhs at h
  obtain ⟨a, h1, h2⟩ := Outcome.bind_eq_ok _ _ _ h
  have hl := getline_ok ifs a h1
  cases hrhs : (tokenize a.1 [])[(tokenize a.1 []).length - 1]? with
  | none => simp only [hrhs] at h2; exact absurd h2 (by simp)
  | some rhs =>
    simp only [hrhs, Outcome.ok.injEq] at h2
    refine ⟨a.1, ?_⟩
    rw [← h2]
    exact hl

theorem skip_line_ok (ifs : List (List Char)) (r : List (List Char))
    (h : skip_line ifs = .ok r) : ∃ l, ifs = l :: r := by
  unfold skip_line at h
  obtain ⟨a, h1, h2⟩ := Outcome.bind_eq_ok _ _ _ h
  have hl := getline_ok ifs a h1
  simp only [Outcome.ok.injEq] at h2
  refine ⟨a.1, ?_⟩
  rw [← h2]
  exact hl
theorem parse_header_ok (toU : List Char → Nat) (ifs : List (List Char))
    (h : Nat × List (List Char)) (hh : parse_header toU ifs = .ok h) :
    h.1 < 2 ^ 32 ∧ (∃ hdr : List (List Char), hdr.length = 21 ∧ ifs = hdr ++ h.2) ∧
    ∃ t, read_line_rhs ifs = .ok (t, ifs.tail) ∧ h.1 = toU t % 2 ^ 32 := by
  unfold parse_header at hh
  obtain ⟨v_ncpu, e_ncpu, hh⟩ := Outcome.bind_eq_ok _ _ _ hh
  obtain ⟨l_ncpu, c_ncpu⟩ := read_line_rhs_ok _ _ e_ncpu
  obtain ⟨v_ndim, e_ndim, hh⟩ := Outcome.bind_eq_ok _ _ _ hh
  obtain ⟨l_ndim, c_ndim⟩ := read_line_rhs_ok _ _ e_ndim
  obtain ⟨v_levelmin, e_levelmin, hh⟩ := Outcome.bind_eq_ok _ _ _ hh
  obtain ⟨l_levelmin, c_levelmin⟩ := read_line_rhs_ok _ _ e_levelmin
  obtain ⟨v_levelmax, e_levelmax, hh⟩ := Outcome.bind_eq_ok _ _ _ hh
  obtain ⟨l_levelmax, c_levelmax⟩ := read_line_rhs_ok _ _ e_levelmax
  obtain ⟨v_ngridmax, e_ngridmax, hh⟩ := Outcome.bind_eq_ok _ _ _ hh
  obtain ⟨l_ngridmax, c_ngridmax⟩ := read_line_rhs_ok _ _ e_ngridmax
  obtain ⟨v_nstep_coarse, e_nstep_coarse, hh⟩ := Outcome.bind_eq_ok _ _ _ hh
  obtain ⟨l_nstep_coarse, c_nstep_coarse⟩ := read_line_rhs_ok _ _ e_nstep_coarse
  obtain ⟨v_s1, e_s1, hh⟩ := Outcome.bind_eq_ok _ _ _ hh
  obtain ⟨l_s1, c_s1⟩ := skip_line_ok _ _ e_s1
  obtain ⟨v_boxlen, e_boxlen, hh⟩ := Outcome.bind_eq_ok _ _ _ hh
  obtain ⟨l_boxlen, c_boxlen⟩ := read_line_rhs_ok _ _ e_boxlen
  obtain ⟨v_time, e_time, hh⟩ := Outcome.bind_eq_ok _ _ _ hh
  obtain ⟨l_time, c_time⟩ := read_line_rhs_ok _ _ e_time
  obtain ⟨v_aexp, e_aexp, hh⟩ := Outcome.bind_eq_ok _ _ _ hh
  obtain ⟨l_aexp, c_aexp⟩ := read_line_rhs_ok _ _ e_aexp
  obtain ⟨v_H0, e_H0, hh⟩ := Outcome.bind_eq_ok _ _ _ hh
  obtain ⟨l_H0, c_H0⟩ := read_line_rhs_ok _ _ e_H0
  obtain ⟨v_omega_m, e_omega_m, hh⟩ := Outcome.bind_eq_ok _ _ _ hh
  obtain ⟨l_omega_m, c_omega_m⟩ := read_line_rhs_ok _ _ e_omega_m
  obtain ⟨v_omega_l, e_omega_l, hh⟩ := Outcome.bind_eq_ok _ _ _ hh
  obtain ⟨l_omega_l, c_omega_l⟩ := read_line_rhs_ok _ _ e_omega_l
  obtain ⟨v_omega_k, e_omega_k, hh⟩ := Outcome.bind_eq_ok _ _ _ hh
  obtain ⟨l_omega_k, c_omega_k⟩ := read_line_rhs_ok _ _ e_omega_k
  obtain ⟨v_omega_b, e_omega_b, hh⟩ := Outcome.bind_eq_ok _ _ _ hh
  obtain ⟨l_omega_b, c_omega_b⟩ := read_line_rhs_ok _ _ e_omega_b
  obtain ⟨v_unit_l, e_unit_l, hh⟩ := Outcome.bind_eq_ok _ _ _ hh
  obtain ⟨l_unit_l, c_unit_l⟩ := read_line_rhs_ok _ _ e_unit_l
  obtain ⟨v_unit_d, e_unit_d, hh⟩ := Outcome.bind_eq_ok _ _ _ hh
  obtain ⟨l_unit_d, c_unit_d⟩ := read_line_rhs_ok _ _ e_unit_d
  obtain ⟨v_unit_t, e_unit_t, hh⟩ := Outcome.bind_eq_ok _ _ _ hh
  obtain ⟨l_unit_t, c_unit_t⟩ := read_line_rhs_ok _ _ e_unit_t
  obtain ⟨v_s2, e_s2, hh⟩ := Outcome.bind_eq_ok _ _ _ hh
  obtain ⟨l_s2, c_s2⟩ := skip_line_ok _ _ e_s2
  obtain ⟨v_s3, e_s3, hh⟩ := Outcome.bind_eq_ok _ _ _ hh
  obtain ⟨l_s3, c_s3⟩ := skip_line_ok _ _ e_s3
  obtain ⟨v_s4, e_s4, hh⟩ := Outcome.bind_eq_ok _ _ _ hh
  obtain ⟨l_s4, c_s4⟩ := skip_line_ok _ _ e_s4
  simp only [Outcome.ok.injEq] at hh
  subst hh
  refine ⟨Nat.mod_lt _ (by decide), ⟨[l_ncpu, l_ndim, l_levelmin, l_levelmax, l_ngridmax, l_nstep_coarse, l_s1, l_boxlen, l_time, l_aexp, l_H0, l_omega_m, l_omega_l, l_omega_k, l_omega_b, l_unit_l, l_unit_d, l_unit_t, l_s2, l_s3, l_s4], rfl, ?_⟩, v_ncpu.1, ?_, rfl⟩
  · rw [c_ncpu, c_ndim, c_levelmin, c_levelmax, c_ngridmax, c_nstep_coarse, c_s1, c_boxlen, c_time, c_aexp, c_H0, c_omega_m, c_omega_l, c_omega_k, c_omega_b, c_unit_l, c_unit_d, c_unit_t, c_s2, c_s3, c_s4]
    rfl
  · rw [e_ncpu, c_ncpu]
    rfl

theorem words_getElem? (L : List (List Char)) (k : Nat) (h : k < L.length) :
    L[k]? = some (L.getD k []) := by
  rw [List.getD_eq_getElem?_getD, List.getElem?_eq_getElem h]; rfl

theorem parse_domains_step_ok (toU : List Char → Nat) (toD : List Char → ℚ) (count i : Nat)
    (l : List Char) (r : List (List Char)) (s : snapshot)
    (h3 : 3 ≤ (tokenize l []).length) (hid : domainId toU l = (i + 1) % 2 ^ 32) :
    parse_domains toU toD (count + 1) i (l :: r) s =
      parse_domains toU toD count (i + 1) r
        { s with ind_min := s.ind_min ++ [toD ((tokenize l []).getD 1 [])]
                 ind_max := s.ind_max ++ [toD ((tokenize l []).getD 2 [])] } := by
  unfold domainId at hid
  rw [parse_domains]
  simp only [getline, Outcome.bind, words_getElem? _ 0 (by omega : 0 < (tokenize l []).length),
    words_getElem? _ 1 (by omega : 1 < (tokenize l []).length),
    words_getElem? _ 2 (by omega : 2 < (tokenize l []).length)]
  rw [if_neg (by rw [hid]; exact fun h => h rfl)]

theorem parse_domains_step_corrupt (toU : List Char → Nat) (toD : List Char → ℚ)
    (count i : Nat) (l : List Char) (r : List (List Char)) (s : snapshot)
    (h1 : 1 ≤ (tokenize l []).length) (hid : domainId toU l ≠ (i + 1) % 2 ^ 32) :
    parse_domains toU toD (count + 1) i (l :: r) s = .corrupt i := by
  unfold domainId at hid
  rw [parse_domains]
  simp only [getline, Outcome.bind, words_getElem? _ 0 (by omega : 0 < (tokenize l []).length)]
  rw [if_pos hid]

theorem parse_domains_ok (toU : List Char → Nat) (toD : List Char → ℚ) :
    ∀ (body : List (List Char)) (i : Nat) (rest : List (List Char)) (s : snapshot),
      (∀ l, l ∈ body → 3 ≤ (tokenize l []).length) → i + body.length < 2 ^ 32 →
      (∀ j, j < body.length → domainId toU (body.getD j []) = i + j + 1) →
      parse_domains toU toD body.length i (body ++ rest) s = .ok
        { s with
          ind_min := s.ind_min ++ body.map (fun l => toD ((tokenize l []).getD 1 []))
          ind_max := s.ind_max ++ body.map (fun l => toD ((tokenize l []).getD 2 [])) } := by
  intro body
  induction body with
  | nil =>
    intro i rest s _ _ _
    show Outcome.ok s = _
    simp
  | cons l body ih =>
    intro i rest s htok hlen hid
    have hlen' : i + (body.length + 1) < 2 ^ 32 := hlen
    have h0 : domainId toU l = (i + 1) % 2 ^ 32 := by
      have := hid 0 (Nat.succ_pos _)
      rw [Nat.mod_eq_of_lt (by omega)]
      simpa using this
    show parse_domains toU toD (body.length + 1) i (l :: (body ++ rest)) s = _
    rw [parse_domains_step_ok toU toD _ i l _ s (htok l (List.mem_cons_self _ _)) h0,
      ih (i + 1) rest _ (fun l' hl' => htok l' (List.mem_cons_of_mem _ hl')) (by omega)
        (fun j hj => by
          have := hid (j + 1) (Nat.succ_lt_succ hj)
          rw [List.getD_cons_succ] at this
          omega)]
    simp

theorem parse_domains_corrupt (toU : List Char → Nat) (toD : List Char → ℚ) :
    ∀ (body : List (List Char)) (i k : Nat) (rest : List (List Char)) (s : snapshot),
      k < body.length → (∀ l, l ∈ body → 3 ≤ (tokenize l []).length) →
      i + body.length < 2 ^ 32 →
      (∀ j, j < k → domainId toU (body.getD j []) = i + j + 1) →
      domainId toU (body.getD k []) ≠ i + k + 1 →
      parse_domains toU toD body.length i (body ++ rest) s = .corrupt (i + k) := by
  intro body
  induction body with
  | nil => intro i k rest s hk; exact absurd hk (Nat.not_lt_zero k)
  | cons l body ih =>
    intro i k rest s hk htok hlen hid hbad
    have hlen' : i + (body.length + 1) < 2 ^ 32 := hlen
    have h3 := htok l (List.mem_cons_self _ _)
    show parse_domains toU toD (body.length + 1) i (l :: (body ++ rest)) s = _
    cases k with
    | zero =>
      have hne : domainId toU l ≠ (i + 1) % 2 ^ 32 := by
        rw [Nat.mod_eq_of_lt (by omega)]
        simpa using hbad
      rw [parse_domains_step_corrupt toU toD _ i l _ s (by omega) hne]
      rfl
    | succ k =>
      have h0 : domainId toU l = (i + 1) % 2 ^ 32 := by
        have := hid 0 (Nat.succ_pos _)
        rw [Nat.mod_eq_of_lt (by omega)]
        simpa using this
      rw [parse_domains_step_ok toU toD _ i l _ s h3 h0,
        ih (i + 1) k rest _ (Nat.lt_of_succ_lt_succ hk)
          (fun l' hl' => htok l' (List.mem_cons_of_mem _ hl')) (by omega)
          (fun j hj => by
            have := hid (j + 1) (Nat.succ_lt_succ hj)
            rw [List.getD_cons_succ] at this
            omega)
          (by
            rw [List.getD_cons_succ] at hbad
            omega)]
      have : i + 1 + k = i + (k + 1) := by omega
      rw [this]

theorem parse_domains_inv (toU : List Char → Nat) (toD : List Char → ℚ) :
    ∀ (count i : Nat) (ifs : List (List Char)) (s s' : snapshot),
      parse_domains toU toD count i ifs s = .ok s' →
      ∃ body rest, ifs = body ++ rest ∧ body.length = count ∧
        (∀ l, l ∈ body → 3 ≤ (tokenize l []).length) ∧ s'.ncpu = s.ncpu ∧
        s'.ind_min = s.ind_min ++ body.map (fun l => toD ((tokenize l []).getD 1 [])) ∧
        s'.ind_max = s.ind_max ++ body.map (fun l => toD ((tokenize l []).getD 2 [])) := by
  intro count
  induction count with
  | zero =>
    intro i ifs s s' h
    have : s' = s := by
      simp only [parse_domains, Outcome.ok.injEq] at h
      exact h.symm
    subst this
    exact ⟨[], ifs, rfl, rfl, fun l hl => absurd hl (List.not_mem_nil l), rfl, by simp, by simp⟩
  | succ count ih =>
    intro i ifs s s' h
    rw [parse_domains] at h
    obtain ⟨r, hr, h⟩ := Outcome.bind_eq_ok _ _ _ h
    have hifs := getline_ok ifs r hr
    cases h0 : (tokenize r.1 [])[0]? with
    | none => simp only [h0] at h; exact absurd h (by simp)
    | some t0 =>
      simp only [h0] at h
      by_cases hid : toU t0 % 2 ^ 32 ≠ (i + 1) % 2 ^ 32
      · rw [if_pos hid] at h; exact absurd h (by simp)
      · rw [if_neg hid] at h
        cases h1 : (tokenize r.1 [])[1]? with
        | none => simp only [h1] at h; exact absurd h (by simp)
        | some t1 =>
          cases h2 : (tokenize r.1 [])[2]? with
          | none => simp only [h1, h2] at h; exact absurd h (by simp)
          | some t2 =>
            simp only [h1, h2] at h
            obtain ⟨body, rest, e1, e2, e3, e4, e5, e6⟩ := ih _ _ _ _ h
            have hlen : 2 < (tokenize r.1 []).length := by
              by_contra hc
              rw [List.getElem?_eq_none (by omega)] at h2
              exact absurd h2 (by simp)
            have ht1 : (tokenize r.1 []).getD 1 [] = t1 := by
              rw [List.getD_eq_getElem?_getD, h1]; rfl
            have ht2 : (tokenize r.1 []).getD 2 [] = t2 := by
              rw [List.getD_eq_getElem?_getD, h2]; rfl
            refine ⟨r.1 :: body, rest, ?_, by simp [e2], ?_, e4, ?_, ?_⟩
            · rw [hifs, e1]; rfl
            · intro l hl
              rcases List.mem_cons.mp hl with hl | hl
              · rw [hl]; omega
              · exact e3 l hl
            · rw [e5, List.map_cons, ht1]; simp
            · rw [e6, List.map_cons, ht2]; simp

/-- C12: for an info file whose header is read and gives `ncpu`, followed by
`ncpu` domain lines of at least three words each, `parse_file` throws its
`runtime_error` exactly when the domain id of some line `i` (counted from 0)
differs from `i + 1`, and it throws in the iteration of the first such line;
when all ids match, it returns normally. -/
theorem parse_file_corrupt_iff (toU : List Char → Nat) (toD : List Char → ℚ)
    (ifs body rest : List (List Char)) (s : snapshot) (ncpu : Nat)
    (hhdr : parse_header toU ifs = .ok (ncpu, body ++ rest)) (hbody : body.length = ncpu)
    (htok : ∀ l, l ∈ body → 3 ≤ (tokenize l []).length) :
    (∀ i, parse_file toU toD ifs s = .corrupt i ↔
      (i < ncpu ∧ domainId toU (body.getD i []) ≠ i + 1 ∧
        ∀ j, j < i → domainId toU (body.getD j []) = j + 1)) ∧
    ((∃ i, parse_file toU toD ifs s = .corrupt i) ↔
      ∃ i, i < ncpu ∧ domainId toU (body.getD i []) ≠ i + 1) ∧
    ((∀ i, i < ncpu → domainId toU (body.getD i []) = i + 1) →
      ∃ s', parse_file toU toD ifs s = .ok s') := by
  have hn : ncpu < 2 ^ 32 := (parse_header_ok toU ifs _ hhdr).1
  have hrun : parse_file toU toD ifs s =
      parse_domains toU toD body.length 0 (body ++ rest) { s with ncpu := ncpu } := by
    unfold parse_file
    rw [hhdr, hbody]
    rfl
  have hok : (∀ i, i < ncpu → domainId toU (body.getD i []) = i + 1) →
      ∃ s', parse_file toU toD ifs s = .ok s' := by
    intro hall
    rw [hrun, parse_domains_ok toU toD body 0 rest _ htok (by omega)
      (fun j hj => by rw [hall j (by omega)]; omega)]
    exact ⟨_, rfl⟩
  have hbad : ∀ i, (i < ncpu ∧ domainId toU (body.getD i []) ≠ i + 1 ∧
      ∀ j, j < i → domainId toU (body.getD j []) = j + 1) →
      parse_file toU toD ifs s = .corrupt i := by
    rintro i ⟨h1, h2, h3⟩
    rw [hrun]
    have := parse_domains_corrupt toU toD body 0 i rest { s with ncpu := ncpu } (by omega)
      htok (by omega) (fun j hj => by rw [h3 j hj]; omega) (by omega)
    rw [Nat.zero_add] at this
    exact this
  have hfirst : (∃ i, i < ncpu ∧ domainId toU (body.getD i []) ≠ i + 1) →
      ∃ i, i < ncpu ∧ domainId toU (body.getD i []) ≠ i + 1 ∧
        ∀ j, j < i → domainId toU (body.getD j []) = j + 1 := by
    intro hex
    classical
    refine ⟨Nat.find hex, (Nat.find_spec hex).1, (Nat.find_spec hex).2, fun j hj => ?_⟩
    by_contra hne
    exact Nat.find_min hex hj ⟨lt_trans hj (Nat.find_spec hex).1, hne⟩
  have hfwd : ∀ i, parse_file toU toD ifs s = .corrupt i →
      (i < ncpu ∧ domainId toU (body.getD i []) ≠ i + 1 ∧
        ∀ j, j < i → domainId toU (body.getD j []) = j + 1) := by
    intro i hi
    by_cases hex : ∃ k, k < ncpu ∧ domainId toU (body.getD k []) ≠ k + 1
    · obtain ⟨k, hk⟩ := hfirst hex
      have := hbad k hk
      rw [hi] at this
      injection this with this
      rw [this]; exact hk
    · obtain ⟨s', hs'⟩ := hok (fun k hk => by
        by_contra hne
        exact hex ⟨k, hk, hne⟩)
      rw [hi] at hs'
      exact absurd hs' (by simp)
  refine ⟨fun i => ⟨hfwd i, hbad i⟩, ⟨?_, ?_⟩, hok⟩
  · rintro ⟨i, hi⟩
    obtain ⟨h1, h2, _⟩ := hfwd i hi
    exact ⟨i, h1, h2⟩
  · intro hex
    obtain ⟨i, hi⟩ := hfirst hex
    exact ⟨i, hbad i hi⟩

theorem parse_file_corrupt_iff_witness :
    ∃ s', parse_file decimal (fun w => (decimal w : ℚ)) sampleInfo (snapshot.mk 0 [] []) =
      .ok s' :=
  (parse_file_corrupt_iff decimal (fun w => (decimal w : ℚ)) sampleInfo
    ["       1   0   10".toList, "       2   10   64".toList] [] (snapshot.mk 0 [] []) 2
    rfl rfl (by decide)).2.2 (by decide)

/-- C13: whenever `parse_file`, run on a fresh object as the constructor does,
returns normally, `ind_min` and `ind_max` both have length `ncpu`, `ncpu` is the
converted right-most word of the first line, and for every `d < ncpu` the
entries at position `d` are the converted second and third word of line `21 + d`
of the file, the line of domain `d + 1` after the 21 header lines. -/
theorem parse_file_tables (toU : List Char → Nat) (toD : List Char → ℚ)
    (ifs : List (List Char)) (n0 : Nat) (s : snapshot)
    (h : parse_file toU toD ifs (snapshot.mk n0 [] []) = .ok s) :
    s.ind_min.length = s.ncpu ∧ s.ind_max.length = s.ncpu ∧
    (∃ t, read_line_rhs ifs = .ok (t, ifs.tail) ∧ s.ncpu = toU t % 2 ^ 32) ∧
    ∀ d, d < s.ncpu →
      3 ≤ (tokenize (ifs.getD (21 + d) []) []).length ∧
      s.ind_min[d]? = some (toD ((tokenize (ifs.getD (21 + d) []) []).getD 1 [])) ∧
      s.ind_max[d]? = some (toD ((tokenize (ifs.getD (21 + d) []) []).getD 2 [])) := by
  unfold parse_file at h
  obtain ⟨hd, hhdr, hrun⟩ := Outcome.bind_eq_ok _ _ _ h
  obtain ⟨_, ⟨hdr, hlen, hifs⟩, t, ht, htn⟩ := parse_header_ok toU ifs hd hhdr
  obtain ⟨body, rest, e1, e2, e3, e4, e5, e6⟩ := parse_domains_inv toU toD _ _ _ _ _ hrun
  have hncpu : s.ncpu = hd.1 := e4
  have hline : ∀ d, d < hd.1 → ifs.getD (21 + d) [] = body.getD d [] := by
    intro d hd'
    rw [hifs, e1, List.getD_append_right _ _ _ _ (by omega), hlen,
      List.getD_append _ _ _ _ (by omega)]
    congr 1
    omega
  refine ⟨by rw [e5, hncpu]; simp [e2], by rw [e6, hncpu]; simp [e2], ⟨t, ht, by rw [hncpu, htn]⟩,
    ?_⟩
  intro d hd'
  rw [hncpu] at hd'
  have hmem : body.getD d [] ∈ body := by
    rw [List.getD_eq_getElem _ _ (by omega)]
    exact List.getElem_mem _
  rw [hline d hd']
  refine ⟨e3 _ hmem, ?_, ?_⟩
  · rw [e5]
    simp only [List.nil_append, List.getElem?_map,
      List.getElem?_eq_getElem (by omega : d < body.length), Option.map_some',
      List.getD_eq_getElem _ _ (by omega : d < body.length)]
  · rw [e6]
    simp only [List.nil_append, List.getElem?_map,
      List.getElem?_eq_getElem (by omega : d < body.length), Option.map_some',
      List.getD_eq_getElem _ _ (by omega : d < body.length)]

theorem parse_file_tables_witness :
    (snapshot.mk 2 [0, 10] [10, 64]).ind_min.length = (snapshot.mk 2 [0, 10] [10, 64]).ncpu ∧
    (snapshot.mk 2 [0, 10] [10, 64]).ind_max.length = (snapshot.mk 2 [0, 10] [10, 64]).ncpu :=
  have h := parse_file_tables decimal (fun w => (decimal w : ℚ)) sampleInfo 0
    (snapshot.mk 2 [0, 10] [10, 64]) (by rfl)
  ⟨h.1, h.2.1⟩

/-! ## More on the Hilbert keys: bounds of the lookups, aliasing, prefixes, origin -/

theorem walkEnd_lt (c : Nat → Nat) (hc : ∀ i, c i < 8) :
    ∀ k s, s < 12 → walkEnd c k s < 12 := by
  intro k
  induction k with
  | zero => intro s hs; exact hs
  | succ k ih => intro s hs; exact ih _ (sdRead_next s hs (c k) (hc k)).2

theorem walkKey_congr (c c' : Nat → Nat) :
    ∀ k s, (∀ i, i < k → c i = c' i) → walkKey c k s = walkKey c' k s := by
  intro k
  induction k with
  | zero => intro s _; rfl
  | succ k ih =>
    intro s h
    show hdigitOf s (c k) * 8 ^ k + walkKey c k (nextState s (c k)) =
      hdigitOf s (c' k) * 8 ^ k + walkKey c' k (nextState s (c' k))
    rw [h k (Nat.lt_succ_self k), ih _ (fun i hi => h i (by omega))]

theorem pointKey_congr (b : Nat) (xx yy zz xx' yy' zz' : Int)
    (hx : ∀ i, i < b → bitAt xx i = bitAt xx' i) (hy : ∀ i, i < b → bitAt yy i = bitAt yy' i)
    (hz : ∀ i, i < b → bitAt zz i = bitAt zz' i) :
    pointKey b xx yy zz = pointKey b xx' yy' zz' := by
  unfold pointKey
  rw [walkKey_congr _ (octant (bitAt xx') (bitAt yy') (bitAt zz')) b 0 (fun i hi => by
    unfold octant
    rw [hx i hi, hy i hi, hz i hi])]

theorem bitAt_mod (b X i : Nat) (hi : i < b) :
    bitAt ((X % 2 ^ b : Nat) : ℤ) i = bitAt (X : ℤ) i := by
  rw [bitAt_natCast, bitAt_natCast, Nat.testBit_mod_two_pow]
  simp [hi]

theorem pointResult_of_floor (b : Nat) (hb1 : 1 ≤ b) (hb : b ≤ 31) (x y z : ℚ)
    (X Y Z : Nat) (hx : ⌊x * 2 ^ b⌋ = (X : ℤ)) (hy : ⌊y * 2 ^ b⌋ = (Y : ℤ))
    (hz : ⌊z * 2 ^ b⌋ = (Z : ℤ)) (hX : X < 2 ^ 31) (hY : Y < 2 ^ 31) (hZ : Z < 2 ^ 31) :
    pointResult b x y z = some (pointKey b X Y Z) := by
  have hp : pow2 b = some ((2 : ℚ) ^ b) := by unfold pow2; rw [if_pos (by omega)]
  unfold pointResult
  rw [if_neg (by omega), hp]
  simp only [Option.bind_eq_bind, Option.some_bind, toInt_of_floor _ X hx hX,
    toInt_of_floor _ Y hy hY, toInt_of_floor _ Z hz hZ]
  rw [if_pos hb]

theorem roundDouble_pos (m : Nat) (hm : 1 ≤ m) : 1 ≤ roundDouble m := by
  unfold roundDouble
  by_cases h : m < 2 ^ 53
  · rw [if_pos h]; exact hm
  · rw [if_neg h]
    have h1 : 2 ^ (ilog2 1024 m - 52) ≤ m :=
      le_trans (Nat.pow_le_pow_right (by decide) (Nat.sub_le _ _)) (ilog2_pow_le 1024 m hm)
    have hpos : 0 < 2 ^ (ilog2 1024 m - 52) := by positivity
    have hq : 1 ≤ m / 2 ^ (ilog2 1024 m - 52) := (Nat.one_le_div_iff hpos).mpr h1
    simp only []
    split
    · exact Nat.mul_pos (by omega) hpos
    · exact Nat.mul_pos (by omega) hpos

theorem roundedSum_zero : ∀ n, roundedSum 0 n = 0 := by
  intro n
  induction n with
  | zero => rfl
  | succ n ih =>
    show roundDouble (roundedSum 0 n + ((0 : Nat).testBit n).toNat * 2 ^ n) = 0
    rw [ih, Nat.zero_testBit]
    have h0 : 0 + false.toNat * 2 ^ n = 0 := by simp
    rw [h0]
    exact roundDouble_exact 0 (by decide)

theorem roundedSum_pos (K : Nat) : ∀ n, K % 2 ^ n ≠ 0 → 1 ≤ roundedSum K n := by
  intro n
  induction n with
  | zero => intro h; exact absurd (Nat.mod_one K) (by simpa using h)
  | succ n ih =>
    intro h
    show 1 ≤ roundDouble (roundedSum K n + (K.testBit n).toNat * 2 ^ n)
    apply roundDouble_pos
    by_cases h0 : K % 2 ^ n = 0
    · have hmod : K % 2 ^ (n + 1) = K % 2 ^ n + (K.testBit n).toNat * 2 ^ n := by
        rw [Nat.mod_pow_succ, Nat.toNat_testBit, Nat.mul_comm]
      rw [hmod, h0, Nat.zero_add] at h
      have : 0 < (K.testBit n).toNat * 2 ^ n := Nat.pos_of_ne_zero h
      omega
    · have := ih h0
      omega

theorem walkKey_zero : ∀ k s, s < 3 → walkKey (fun _ => 0) k s = 0 := by
  intro k
  induction k with
  | zero => intro s _; rfl
  | succ k ih =>
    intro s hs
    show hdigitOf s 0 * 8 ^ k + walkKey (fun _ => 0) k (nextState s 0) = 0
    have h : hdigitOf s 0 = 0 ∧ nextState s 0 < 3 := by
      have : ∀ t, t < 3 → hdigitOf t 0 = 0 ∧ nextState t 0 < 3 := by decide
      exact this s hs
    rw [h.1, ih _ h.2]
    simp

theorem walkEnd_zero : ∀ k s, s < 3 → walkEnd (fun _ => 0) k s = (s + k) % 3 := by
  intro k
  induction k with
  | zero => intro s hs; show s = (s + 0) % 3; omega
  | succ k ih =>
    intro s hs
    show walkEnd (fun _ => 0) k (nextState s 0) = (s + (k + 1)) % 3
    have h : nextState s 0 = (s + 1) % 3 := by
      have : ∀ t, t < 3 → nextState t 0 = (t + 1) % 3 := by decide
      exact this s hs
    rw [h, ih _ (Nat.mod_lt _ (by decide))]
    omega

theorem walkKey_succ_parent (c : Nat → Nat) :
    ∀ k s, walkKey c (k + 1) s =
      8 * walkKey (fun i => c (i + 1)) k s + hdigitOf (walkEnd (fun i => c (i + 1)) k s) (c 0) := by
  intro k
  induction k with
  | zero =>
    intro s
    show hdigitOf s (c 0) * 8 ^ 0 + 0 = 8 * 0 + hdigitOf s (c 0)
    simp
  | succ k ih =>
    intro s
    show hdigitOf s (c (k + 1)) * 8 ^ (k + 1) + walkKey c (k + 1) (nextState s (c (k + 1))) =
      8 * (hdigitOf s (c (k + 1)) * 8 ^ k +
        walkKey (fun i => c (i + 1)) k (nextState s (c (k + 1)))) +
      hdigitOf (walkEnd (fun i => c (i + 1)) k (nextState s (c (k + 1)))) (c 0)
    rw [ih]
    ring

theorem refBit_half (X i : Nat) : refBit X (i + 1) = refBit (X / 2) i := by
  unfold refBit
  rw [pow_succ', ← Nat.div_div_eq_div_mul]

theorem refCode_half (X Y Z : Nat) :
    (fun i => refCode X Y Z (i + 1)) = refCode (X / 2) (Y / 2) (Z / 2) := by
  funext i
  unfold refCode
  rw [refBit_half, refBit_half, refBit_half]

theorem pointResult_eq (b : Nat) (hb1 : 1 ≤ b) (hb : b ≤ 31) (x y z : ℚ) :
    pointResult b x y z =
      (toInt (x * 2 ^ b)).bind (fun xx => (toInt (y * 2 ^ b)).bind (fun yy =>
        (toInt (z * 2 ^ b)).bind (fun zz => some (pointKey b xx yy zz)))) := by
  have hp : pow2 b = some ((2 : ℚ) ^ b) := by unfold pow2; rw [if_pos (by omega)]
  unfold pointResult
  rw [if_neg (by omega), hp]
  simp only [Option.bind_eq_bind, Option.some_bind, if_pos hb]

theorem bools_getElem? (im : List Bool) (k : Nat) (h : k < im.length) :
    im[k]? = some (im.getD k false) := by
  rw [List.getD_eq_getElem?_getD, List.getElem?_eq_getElem h]; rfl

/-- C16: every entry of `state_diagram` read with a state in `0..11` and an
octant code in `0..7` exists, the next state is again in `0..11` and the digit in
`0..7`; an octant code formed from three bits is in `0..7`; so for every
`bit_length` and every content of the bit mask (every input), each step of the
traversal, at every level `i < bit_length` and from every state in `0..11`, reads
and writes `i_bit_mask[3i .. 3i+2]` and reads `state_diagram` within bounds and
leaves a state in `0..11`, and the whole traversal from state 0 does. -/
theorem walk_in_bounds :
    (∀ s c, s < 12 → c < 8 →
      (∃ n, sdRead s 0 c = some n ∧ n < 12) ∧ ∃ d, sdRead s 1 c = some d ∧ d < 8) ∧
    (∀ v2 v1 v0 : Bool, v2.toNat * 4 + v1.toNat * 2 + v0.toNat < 8) ∧
    (∀ (b i : Nat) (im : List Bool) (s : Nat), im.length = 3 * b → s < 12 → i < b →
      ∃ im' s', walkStep i (im, s) = some (im', s') ∧ im'.length = 3 * b ∧ s' < 12) ∧
    ∀ (b : Nat) (im : List Bool), im.length = 3 * b →
      ∃ im' s', forDown walkStep b (im, 0) = some (im', s') ∧ im'.length = 3 * b ∧
        s' < 12 := by
  refine ⟨fun s c hs hc => ⟨⟨_, sdRead_next s hs c hc⟩, ⟨_, sdRead_digit s hs c hc⟩⟩, ?_, ?_, ?_⟩
  · intro v2 v1 v0
    cases v2 <;> cases v1 <;> cases v0 <;> decide
  · intro b i im s hlen hs hi
    have hstep := walkStep_eq i im s (by omega) hs _ _ _
      (bools_getElem? im (3 * i + 2) (by omega)) (bools_getElem? im (3 * i + 1) (by omega))
      (bools_getElem? im (3 * i + 0) (by omega))
    refine ⟨_, _, hstep, ?_, ?_⟩
    · rw [List.length_set, List.length_set, List.length_set]; exact hlen
    · refine (sdRead_next s hs _ ?_).2
      cases im.getD (3 * i + 2) false <;> cases im.getD (3 * i + 1) false <;>
        cases im.getD (3 * i + 0) false <;> decide
  · intro b im hlen
    obtain ⟨im', hrun, hl, _, _⟩ := walk_spec (fun i => im.getD (3 * i + 2) false)
      (fun i => im.getD (3 * i + 1) false) (fun i => im.getD (3 * i + 0) false) b im 0
      (by omega) (by decide)
      (fun i hi => ⟨bools_getElem? im _ (by omega), bools_getElem? im _ (by omega),
        bools_getElem? im _ (by omega)⟩)
    exact ⟨im', _, hrun, by rw [hl]; exact hlen,
      walkEnd_lt _ (octant_lt _ _ _) b 0 (by decide)⟩

theorem walk_in_bounds_witness :
    ∃ im' s', forDown walkStep 2 ([true, false, true, false, false, true], 0) =
      some (im', s') ∧ im'.length = 3 * 2 ∧ s' < 12 :=
  walk_in_bounds.2.2.2 2 [true, false, true, false, false, true] rfl

/-- C14, at `bit_length = 1` and the point `(1073741824.5, 0.5, 0)`: the scaled
coordinates truncate to the non-negative integers `2^31 + 1`, `1`, `0`; the first
does not fit the 32-bit `int`, the conversion is undefined and `hilbert3d` writes
no defined key, while the point of the coordinates reduced mod `2^1`, the cell
`(1, 1, 0)`, gets the key 4. -/
theorem hilbertKey_not_aliased_int :
    ⌊(2147483649 / 2 : ℚ) * 2 ^ 1⌋ = ((2147483649 : ℕ) : ℤ) ∧
    ⌊(1 / 2 : ℚ) * 2 ^ 1⌋ = ((1 : ℕ) : ℤ) ∧ ⌊(0 : ℚ) * 2 ^ 1⌋ = ((0 : ℕ) : ℤ) ∧
    toInt ((2147483649 / 2 : ℚ) * 2 ^ 1) = none ∧
    hilbertKey (2147483649 / 2) (1 / 2) 0 1 = none ∧
    hilbertKey (((2147483649 % 2 ^ 1 : ℕ) : ℚ) / 2 ^ 1) (((1 % 2 ^ 1 : ℕ) : ℚ) / 2 ^ 1)
      (((0 % 2 ^ 1 : ℕ) : ℚ) / 2 ^ 1) 1 = some ((4 : ℕ) : ℚ) := by
  have hval : (2147483649 / 2 : ℚ) * 2 ^ 1 = ((2147483649 : ℕ) : ℚ) := by norm_num
  have hconv : toInt ((2147483649 / 2 : ℚ) * 2 ^ 1) = none := by
    rw [hval]
    unfold toInt
    simp only [Rat.num_natCast, Rat.den_natCast, Nat.cast_one, Int.tdiv_one]
    rw [if_neg (by decide)]
  refine ⟨?_, ?_, ?_, hconv, ?_, ?_⟩
  · rw [hval]; exact Int.floor_natCast _
  · rw [Int.floor_eq_iff]; norm_num
  · simp
  · rw [hilbertKey_eq, pointResult_eq 1 (by decide) (by decide), hconv]
    simp only [Option.none_bind, Option.map_none']
  · rw [hilbertKey_grid 1 (by decide) (by decide) _ _ _ (by decide) (by decide) (by decide)]
    have h : pointKey 1 ((2147483649 % 2 ^ 1 : ℕ) : ℤ) ((1 % 2 ^ 1 : ℕ) : ℤ)
        ((0 % 2 ^ 1 : ℕ) : ℤ) = 4 := by decide
    rw [h]

/-- C14 (amended to coordinates that fit the `int`): for every bit length
`1 <= b <= 31` and every point whose scaled coordinates truncate to non-negative
values `X`, `Y`, `Z` below `2^31` (not required to be below `2^b`), `hilbert3d`
writes a key, and it is the key of the grid point of `X mod 2^b`, `Y mod 2^b`,
`Z mod 2^b`. For `b <= 30`, where `2^b` fits the `int`, the coordinate 1.0 gets
the key of the coordinate 0.0. -/
theorem hilbertKey_aliasing (b : Nat) (hb1 : 1 ≤ b) (hb : b ≤ 31) (x y z : ℚ)
    (X Y Z : Nat) (hx : ⌊x * 2 ^ b⌋ = (X : ℤ)) (hy : ⌊y * 2 ^ b⌋ = (Y : ℤ))
    (hz : ⌊z * 2 ^ b⌋ = (Z : ℤ)) (hX : X < 2 ^ 31) (hY : Y < 2 ^ 31) (hZ : Z < 2 ^ 31) :
    (∃ k : Nat, hilbertKey x y z b = some (k : ℚ)) ∧
    hilbertKey x y z b =
      hilbertKey (((X % 2 ^ b : Nat) : ℚ) / 2 ^ b) (((Y % 2 ^ b : Nat) : ℚ) / 2 ^ b)
        (((Z % 2 ^ b : Nat) : ℚ) / 2 ^ b) b ∧
    (b ≤ 30 → ∀ y' z' : ℚ, hilbertKey 1 y' z' b = hilbertKey 0 y' z' b) := by
  have hpos : 0 < 2 ^ b := by positivity
  have hkey : hilbertKey x y z b = some ((pointKey b X Y Z : Nat) : ℚ) := by
    rw [hilbertKey_eq, pointResult_of_floor b hb1 hb x y z X Y Z hx hy hz hX hY hZ]
    rfl
  refine ⟨⟨_, hkey⟩, ?_, ?_⟩
  · rw [hkey, hilbertKey_grid b hb1 hb _ _ _ (Nat.mod_lt _ hpos) (Nat.mod_lt _ hpos)
      (Nat.mod_lt _ hpos),
      pointKey_congr b X Y Z _ _ _ (fun i hi => (bitAt_mod b X i hi).symm)
        (fun i hi => (bitAt_mod b Y i hi).symm) (fun i hi => (bitAt_mod b Z i hi).symm)]
  · intro hb30 y' z'
    have hpow : (2 : Nat) ^ b ≤ 2 ^ 30 := Nat.pow_le_pow_right (by decide) hb30
    have h1 : toInt ((1 : ℚ) * 2 ^ b) = some ((2 ^ b : Nat) : ℤ) :=
      toInt_of_floor _ (2 ^ b) (by
        have : (1 : ℚ) * 2 ^ b = ((2 ^ b : Nat) : ℚ) := by push_cast; ring
        rw [this]; exact Int.floor_natCast _) (by omega)
    have h0 : toInt ((0 : ℚ) * 2 ^ b) = some ((0 : Nat) : ℤ) :=
      toInt_of_floor _ 0 (by simp) (by decide)
    rw [hilbertKey_eq, hilbertKey_eq, pointResult_eq b hb1 hb, pointResult_eq b hb1 hb, h1, h0]
    cases toInt (y' * 2 ^ b) with
    | none => simp only [Option.some_bind, Option.none_bind]
    | some yy =>
      cases toInt (z' * 2 ^ b) with
      | none => simp only [Option.some_bind, Option.none_bind]
      | some zz =>
        simp only [Option.some_bind]
        rw [pointKey_congr b ((2 ^ b : Nat) : ℤ) yy zz ((0 : Nat) : ℤ) yy zz
          (fun i hi => by
            rw [bitAt_natCast, bitAt_natCast, Nat.testBit_two_pow, Nat.zero_testBit]
            exact decide_eq_false (by omega))
          (fun _ _ => rfl) (fun _ _ => rfl)]

theorem hilbertKey_aliasing_witness :
    hilbertKey (1 : ℚ) (5 / 4) 0 2 =
      hilbertKey (((4 % 2 ^ 2 : Nat) : ℚ) / 2 ^ 2) (((5 % 2 ^ 2 : Nat) : ℚ) / 2 ^ 2)
        (((0 % 2 ^ 2 : Nat) : ℚ) / 2 ^ 2) 2 :=
  (hilbertKey_aliasing 2 (by decide) (by decide) 1 (5 / 4) 0 4 5 0
    (by rw [Int.floor_eq_iff]; norm_num) (by rw [Int.floor_eq_iff]; norm_num)
    (by rw [Int.floor_eq_iff]; norm_num) (by decide) (by decide) (by decide)).2.1

/-- C15, at `b = 17`: the cell `(262143, 0, 0)` gets the key `2^54` at a bit
length of 18, whose quotient by 8 is `2^51`, and its parent cell `(131071, 0, 0)`
gets the key `2^51 - 1` at a bit length of 17. -/
theorem hilbertKey_parent_fails_17 :
    hilbertKey (((262143 : ℕ) : ℚ) / 2 ^ 18) (((0 : ℕ) : ℚ) / 2 ^ 18)
      (((0 : ℕ) : ℚ) / 2 ^ 18) 18 = some ((18014398509481984 : ℕ) : ℚ) ∧
    hilbertKey (((262143 / 2 : ℕ) : ℚ) / 2 ^ 17) (((0 / 2 : ℕ) : ℚ) / 2 ^ 17)
      (((0 / 2 : ℕ) : ℚ) / 2 ^ 17) 17 = some ((2251799813685247 : ℕ) : ℚ) ∧
    18014398509481984 / 8 ≠ 2251799813685247 := by
  refine ⟨?_, ?_, by decide⟩
  · rw [hilbertKey_grid 18 (by decide) (by decide) _ _ _ (by decide) (by decide) (by decide)]
    have h : pointKey 18 ((262143 : ℕ) : ℤ) ((0 : ℕ) : ℤ) ((0 : ℕ) : ℤ) =
        18014398509481984 := by decide
    rw [h]
  · rw [hilbertKey_grid 17 (by decide) (by decide) _ _ _ (by decide) (by decide) (by decide)]
    have h : pointKey 17 ((262143 / 2 : ℕ) : ℤ) ((0 / 2 : ℕ) : ℤ) ((0 / 2 : ℕ) : ℤ) =
        2251799813685247 := by decide
    rw [h]

/-- C15 (amended to `1 <= b <= 16`, so that the finer key has at most 51 bits):
for every cell `(X, Y, Z)` of the grid of `b + 1` bits per axis, the key at bit
length `b + 1` divided by 8 (its lowest octal digit dropped) is the key of the
parent cell `(X/2, Y/2, Z/2)` at bit length `b`. -/
theorem hilbertKey_parent (b : Nat) (hb1 : 1 ≤ b) (hb : b ≤ 16) (X Y Z : Nat)
    (hX : X < 2 ^ (b + 1)) (hY : Y < 2 ^ (b + 1)) (hZ : Z < 2 ^ (b + 1)) :
    ∃ k k' : Nat,
      hilbertKey ((X : ℚ) / 2 ^ (b + 1)) ((Y : ℚ) / 2 ^ (b + 1)) ((Z : ℚ) / 2 ^ (b + 1))
        (b + 1) = some (k : ℚ) ∧
      hilbertKey (((X / 2 : Nat) : ℚ) / 2 ^ b) (((Y / 2 : Nat) : ℚ) / 2 ^ b)
        (((Z / 2 : Nat) : ℚ) / 2 ^ b) b = some (k' : ℚ) ∧
      k / 8 = k' := by
  have hhalf : ∀ W, W < 2 ^ (b + 1) → W / 2 < 2 ^ b := by
    intro W hW
    rw [pow_succ] at hW
    omega
  refine ⟨walkKey (refCode X Y Z) (b + 1) 0, walkKey (refCode (X / 2) (Y / 2) (Z / 2)) b 0,
    ?_, ?_, ?_⟩
  · rw [hilbertKey_grid (b + 1) (by omega) (by omega) X Y Z hX hY hZ,
      pointKey_grid (b + 1) (by omega)]
  · rw [hilbertKey_grid b hb1 (by omega) _ _ _ (hhalf X hX) (hhalf Y hY) (hhalf Z hZ),
      pointKey_grid b (by omega)]
  · rw [walkKey_succ_parent, refCode_half]
    have hd := (sdRead_digit _ (walkEnd_lt _ (refCode_lt (X / 2) (Y / 2) (Z / 2)) b 0
      (by decide)) _ (refCode_lt X Y Z 0)).2
    omega

theorem hilbertKey_parent_witness :
    ∃ k k' : Nat,
      hilbertKey (((5 : ℕ) : ℚ) / 2 ^ (2 + 1)) (((2 : ℕ) : ℚ) / 2 ^ (2 + 1))
        (((7 : ℕ) : ℚ) / 2 ^ (2 + 1)) (2 + 1) = some (k : ℚ) ∧
      hilbertKey (((5 / 2 : Nat) : ℚ) / 2 ^ 2) (((2 / 2 : Nat) : ℚ) / 2 ^ 2)
        (((7 / 2 : Nat) : ℚ) / 2 ^ 2) 2 = some (k' : ℚ) ∧
      k / 8 = k' :=
  hilbertKey_parent 2 (by decide) (by decide) 5 2 7 (by decide) (by decide) (by decide)

/-- C19: for every bit length `1 <= b <= 31` (the range in which `btest` on the
32-bit `int` is defined) the point of the grid cell `(0, 0, 0)` gets the key 0:
with octant code 0 throughout, the state machine goes `0 -> 1 -> 2 -> 0` and
emits the digit 0 in each of these states. Every other cell of the grid gets a
key of at least 1. -/
theorem hilbertKey_origin (b : Nat) (hb1 : 1 ≤ b) (hb : b ≤ 31) :
    hilbertKey 0 0 0 b = some 0 ∧
    (nextState 0 0 = 1 ∧ nextState 1 0 = 2 ∧ nextState 2 0 = 0 ∧
      hdigitOf 0 0 = 0 ∧ hdigitOf 1 0 = 0 ∧ hdigitOf 2 0 = 0) ∧
    (∀ n, walkEnd (fun _ => 0) n 0 = n % 3) ∧
    ∀ X Y Z : Nat, X < 2 ^ b → Y < 2 ^ b → Z < 2 ^ b → (X ≠ 0 ∨ Y ≠ 0 ∨ Z ≠ 0) →
      ∃ k : Nat, hilbertKey ((X : ℚ) / 2 ^ b) ((Y : ℚ) / 2 ^ b) ((Z : ℚ) / 2 ^ b) b =
        some (k : ℚ) ∧ 1 ≤ k := by
  have hzero : refCode 0 0 0 = fun _ => 0 := by
    funext i
    simp [refCode, refBit]
  have hpos : 0 < 2 ^ b := by positivity
  refine ⟨?_, by decide, ?_, ?_⟩
  · have h := hilbertKey_grid b hb1 hb 0 0 0 hpos hpos hpos
    have hk : pointKey b ((0 : ℕ) : ℤ) ((0 : ℕ) : ℤ) ((0 : ℕ) : ℤ) = 0 := by
      unfold pointKey
      rw [octant_natCast, hzero, walkKey_zero b 0 (by decide), roundedSum_zero]
    rw [hk] at h
    simpa using h
  · intro n
    rw [walkEnd_zero n 0 (by decide), Nat.zero_add]
  · intro X Y Z hX hY hZ hne
    refine ⟨pointKey b X Y Z, hilbertKey_grid b hb1 hb X Y Z hX hY hZ, ?_⟩
    unfold pointKey
    rw [octant_natCast]
    apply roundedSum_pos
    have hlt := walkKey_lt _ (refCode_lt X Y Z) b 0 (by decide)
    have h8 : (8 : Nat) ^ b = 2 ^ (3 * b) := by rw [pow_mul]; rfl
    rw [h8] at hlt
    rw [Nat.mod_eq_of_lt hlt]
    intro hk0
    have h0 : walkKey (refCode 0 0 0) b 0 = 0 := by
      rw [hzero]; exact walkKey_zero b 0 (by decide)
    obtain ⟨e1, e2, e3⟩ := cell_eq_of_walkKey_eq b X Y Z 0 0 0 hX hY hZ hpos hpos hpos
      (by rw [hk0, h0])
    rcases hne with h | h | h
    · exact h e1
    · exact h e2
    · exact h e3

theorem hilbertKey_origin_witness : hilbertKey 0 0 0 3 = some 0 :=
  (hilbertKey_origin 3 (by decide) (by decide)).1

end RAMSES
